import Mathlib

/-!
# File-backed token cache (`athenahealth/tokencacher/file.go`)

A shallow embedding of `File.Get` and `File.Set` together with the parts of the
Go standard library they call: `time.Time` with its RFC 3339 JSON form,
`encoding/json` for the two-field `cache` record, and `ioutil.ReadFile` /
`ioutil.WriteFile` on a small file-system state.

A Go string (the token) is a list of bytes, written as natural numbers below
256; it need not be well-formed UTF-8. The content of the cache file is
modelled as text, a `List Char` of Unicode code points: `json.Marshal` only
ever writes well-formed UTF-8, and the claims about reading do not turn on
ill-formed bytes in the file.
-/

namespace tokencacher

/-! ## `time.Time` -/

/-- A `time.Time` value in its civil presentation: the date and clock reading
in the zone of the value, and the offset of that zone east of UTC in seconds,
as Go keeps it (`time.FixedZone` takes any number of seconds). The monotonic
clock reading is not part of the model: a time decoded from JSON never has
one, so `After` compares wall-clock instants. -/
structure Time where
  year : Int
  month : Nat
  day : Nat
  hour : Nat
  minute : Nat
  second : Nat
  nsec : Nat
  offset : Int
deriving DecidableEq, Repr

/-- The zero value of `time.Time`: January 1, year 1, 00:00:00 UTC. -/
def Time.zero : Time := ⟨1, 1, 1, 0, 0, 0, 0, 0⟩

/-- Go `time.isLeap`. -/
def isLeap (year : Int) : Bool :=
  year % 4 == 0 && (year % 100 != 0 || year % 400 == 0)

/-- Go `time.daysIn`: the number of days of month `m` in `year`. -/
def daysIn (m : Nat) (year : Int) : Nat :=
  if m = 2 then (if isLeap year then 29 else 28)
  else if m = 4 ∨ m = 6 ∨ m = 9 ∨ m = 11 then 30
  else 31

/-- The civil fields denote a real date and clock reading. Every `time.Time`
has such a presentation. -/
def Time.Valid (t : Time) : Prop :=
  1 ≤ t.month ∧ t.month ≤ 12 ∧ 1 ≤ t.day ∧ t.day ≤ daysIn t.month t.year ∧
  t.hour < 24 ∧ t.minute < 60 ∧ t.second < 60 ∧ t.nsec < 1000000000

instance (t : Time) : Decidable t.Valid := by
  unfold Time.Valid; infer_instance

/-- Days from 1970-01-01 to the given proleptic Gregorian date. -/
def daysFromCivil (year : Int) (month day : Nat) : Int :=
  let y : Int := if month ≤ 2 then year - 1 else year
  let era : Int := y / 400
  let yoe : Int := y - era * 400
  let mp : Int := ((month + 9) % 12 : Nat)
  let doy : Int := (153 * mp + 2) / 5 + (day : Int) - 1
  let doe : Int := yoe * 365 + yoe / 4 - yoe / 100 + doy
  era * 146097 + doe - 719468

/-- The instant of `t` in nanoseconds since 1970-01-01T00:00:00Z. -/
def Time.unixNano (t : Time) : Int :=
  (daysFromCivil t.year t.month t.day * 86400 + (t.hour : Int) * 3600 + (t.minute : Int) * 60
      + (t.second : Int) - t.offset) * 1000000000 + (t.nsec : Int)

/-- Go `Time.After`: reports whether the instant `t` is after `u`. -/
def Time.After (t u : Time) : Bool :=
  decide (u.unixNano < t.unixNano)

/-! ### RFC 3339 text form -/

/-- The decimal digit character of `n % 10`. -/
def digitChar (n : Nat) : Char :=
  match n % 10 with
  | 0 => '0' | 1 => '1' | 2 => '2' | 3 => '3' | 4 => '4'
  | 5 => '5' | 6 => '6' | 7 => '7' | 8 => '8' | _ => '9'

/-- Value of a decimal digit character, `none` for any other character. -/
def digitVal (c : Char) : Option Nat :=
  if c = '0' then some 0 else if c = '1' then some 1 else if c = '2' then some 2
  else if c = '3' then some 3 else if c = '4' then some 4 else if c = '5' then some 5
  else if c = '6' then some 6 else if c = '7' then some 7 else if c = '8' then some 8
  else if c = '9' then some 9 else none

def isDigit (c : Char) : Bool := (digitVal c).isSome

/-- Go `appendInt(b, n, 2)` for `0 ≤ n`. -/
def appendInt2 (n : Nat) : List Char := [digitChar (n / 10), digitChar n]

/-- Go `appendInt(b, n, 4)` for `0 ≤ n`. -/
def appendInt4 (n : Nat) : List Char :=
  [digitChar (n / 1000), digitChar (n / 100), digitChar (n / 10), digitChar n]

/-- Go `appendInt(b, n, 9)` for `0 ≤ n`. -/
def appendInt9 (n : Nat) : List Char :=
  [digitChar (n / 100000000), digitChar (n / 10000000), digitChar (n / 1000000),
   digitChar (n / 100000), digitChar (n / 10000), digitChar (n / 1000),
   digitChar (n / 100), digitChar (n / 10), digitChar n]

/-- Go `appendNano` for the layout `.999999999`: nothing for zero nanoseconds,
otherwise a dot and the nine digits with trailing zeros removed. -/
def appendNano (nsec : Nat) : List Char :=
  if nsec = 0 then [] else '.' :: (appendInt9 nsec).rdropWhile (fun c => c == '0')

/-- Go `zone := offset / 60`: the offset in minutes, rounded towards zero. The
seconds of the offset are dropped. -/
def zoneMinutes (offset : Int) : Int := Int.tdiv offset 60

/-- The zone suffix written by Go `appendFormatRFC3339`: `Z` for the offset
zero, otherwise the sign of `zoneMinutes offset` and its `hh:mm`. -/
def appendZone (offset : Int) : List Char :=
  if offset = 0 then ['Z']
  else if zoneMinutes offset < 0 then
    '-' :: (appendInt2 ((zoneMinutes offset).natAbs / 60) ++
      ':' :: appendInt2 ((zoneMinutes offset).natAbs % 60))
  else
    '+' :: (appendInt2 ((zoneMinutes offset).natAbs / 60) ++
      ':' :: appendInt2 ((zoneMinutes offset).natAbs % 60))

/-- Go `Time.appendFormatRFC3339(b, true)` (layout `RFC3339Nano`), for a year in
`[0,9999]`. -/
def appendFormatRFC3339 (t : Time) : List Char :=
  appendInt4 t.year.toNat ++ '-' :: appendInt2 t.month ++ '-' :: appendInt2 t.day ++
    'T' :: appendInt2 t.hour ++ ':' :: appendInt2 t.minute ++ ':' :: appendInt2 t.second ++
    appendNano t.nsec ++ appendZone t.offset

/-- Go `parseUint` of `parseRFC3339`: all characters are digits and the value
lies in `[lo, hi]`. -/
def parseUint (s : List Char) (lo hi : Nat) : Option Nat :=
  match s.foldlM (fun (x : Nat) (c : Char) => (digitVal c).map (fun d => x * 10 + d)) 0 with
  | some x => if lo ≤ x ∧ x ≤ hi then some x else none
  | none => none

/-- Decimal value of a digit string (Go `atoi` on digits). -/
def decVal (l : List Char) : Nat :=
  l.foldl (fun (x : Nat) (c : Char) => x * 10 + (digitVal c).getD 0) 0

/-- Go `parseNanoseconds` applied to the digits after the dot: at most nine
digits count, scaled to nanoseconds. -/
def parseNanoseconds (digits : List Char) : Nat :=
  decVal (digits.take 9) * 10 ^ (9 - (digits.take 9).length)

/-- The zone part of Go `parseRFC3339`: `Z`, or a sign and `hh:mm` with
`hh ≤ 23`, `mm ≤ 59`, up to the end of the input. Returns seconds east. -/
def parseZone (s : List Char) : Option Int :=
  match s with
  | ['Z'] => some 0
  | [sg, h1, h2, c, m1, m2] =>
    match parseUint [h1, h2] 0 23, parseUint [m1, m2] 0 59 with
    | some hr, some mm =>
      if c = ':' then
        if sg = '-' then some (-(((hr * 60 + mm) * 60 : Nat) : Int))
        else if sg = '+' then some (((hr * 60 + mm) * 60 : Nat) : Int)
        else none
      else none
    | _, _ => none
  | _ => none

/-- Go `parseRFC3339`, the strict parser that `parseStrictRFC3339` tries first. -/
def parseRFC3339 (s : List Char) : Option Time :=
  match s with
  | y1 :: y2 :: y3 :: y4 :: c1 :: mo1 :: mo2 :: c2 :: d1 :: d2 :: c3 :: h1 :: h2 :: c4 ::
      mi1 :: mi2 :: c5 :: s1 :: s2 :: rest =>
    match parseUint [y1, y2, y3, y4] 0 9999, parseUint [mo1, mo2] 1 12 with
    | some year, some month =>
      match parseUint [d1, d2] 1 (daysIn month year), parseUint [h1, h2] 0 23,
          parseUint [mi1, mi2] 0 59, parseUint [s1, s2] 0 59 with
      | some day, some hour, some minute, some sec =>
        if c1 = '-' ∧ c2 = '-' ∧ c3 = 'T' ∧ c4 = ':' ∧ c5 = ':' then
          let frac : List Char :=
            match rest with
            | '.' :: ds => if (ds.takeWhile isDigit).isEmpty then [] else ds.takeWhile isDigit
            | _ => []
          let nsec : Nat := if frac.isEmpty then 0 else parseNanoseconds frac
          let tail : List Char := if frac.isEmpty then rest else rest.drop (frac.length + 1)
          (parseZone tail).map (fun off => ⟨year, month, day, hour, minute, sec, nsec, off⟩)
        else none
      | _, _, _, _ => none
    | _, _ => none
  | _ => none

/-- Go `getnum(s, true)`: exactly two digits. -/
def getnum2 (s : List Char) : Option (Nat × List Char) :=
  match s with
  | a :: b :: rest =>
    match digitVal a, digitVal b with
    | some x, some y => some (x * 10 + y, rest)
    | _, _ => none
  | _ => none

/-- Go `getnum(s, false)`: one digit, or two when a second digit follows. -/
def getnum1 (s : List Char) : Option (Nat × List Char) :=
  match s with
  | a :: rest =>
    match digitVal a with
    | none => none
    | some x =>
      match rest with
      | b :: rest1 =>
        match digitVal b with
        | some y => some (x * 10 + y, rest1)
        | none => some (x, rest)
      | [] => some (x, rest)
  | [] => none

/-- The literal character `c` of the layout at the head of the input. -/
def expectChar (c : Char) (s : List Char) : Option (List Char) :=
  match s with
  | d :: rest => if d = c then some rest else none
  | [] => none

/-- The zone of Go `Parse` for the layout element `Z07:00`: `Z`, or a sign and
`hh:mm` with `hh ≤ 24` and `mm ≤ 60`. Returns seconds east and the rest. -/
def parseZoneLayout (s : List Char) : Option (Int × List Char) :=
  match s with
  | [] => none
  | sg :: rest =>
    if sg = 'Z' then some (0, rest)
    else
      match rest with
      | h1 :: h2 :: c :: m1 :: m2 :: rest1 =>
        match getnum2 [h1, h2], getnum2 [m1, m2] with
        | some (hr, _), some (mm, _) =>
          if c = ':' ∧ hr ≤ 24 ∧ mm ≤ 60 then
            if sg = '+' then some ((((hr * 60 + mm) * 60 : Nat) : Int), rest1)
            else if sg = '-' then some (-(((hr * 60 + mm) * 60 : Nat) : Int), rest1)
            else none
          else none
        | _, _ => none
      | _ => none

/-- The date part `2006-01-02T` of the layout: year, month, day and the rest. -/
def parseLayoutDate (s : List Char) : Option ((Nat × Nat × Nat) × List Char) :=
  match s with
  | y1 :: y2 :: y3 :: y4 :: s1 =>
    match parseUint [y1, y2, y3, y4] 0 9999 with
    | none => none
    | some year =>
      match expectChar '-' s1 with
      | none => none
      | some s2 =>
        match getnum2 s2 with
        | none => none
        | some (month, s3) =>
          match expectChar '-' s3 with
          | none => none
          | some s4 =>
            match getnum2 s4 with
            | none => none
            | some (day, s5) => (expectChar 'T' s5).map (fun s6 => ((year, month, day), s6))
  | _ => none

/-- The clock part `15:04:05` of the layout: hour, minute, second and the
rest. The hour may have one digit. -/
def parseLayoutClock (s : List Char) : Option ((Nat × Nat × Nat) × List Char) :=
  match getnum1 s with
  | none => none
  | some (hour, s1) =>
    match expectChar ':' s1 with
    | none => none
    | some s2 =>
      match getnum2 s2 with
      | none => none
      | some (minute, s3) =>
        match expectChar ':' s3 with
        | none => none
        | some s4 => (getnum2 s4).map (fun p => ((hour, minute, p.1), p.2))

/-- Fractional seconds after the seconds of the layout: a period or a comma
followed by at least one digit; returns the nanoseconds and the rest. -/
def parseLayoutFrac (s : List Char) : Nat × List Char :=
  match s with
  | sep :: ds =>
    if (sep = '.' ∨ sep = ',') ∧ ¬ (ds.takeWhile isDigit).isEmpty then
      (parseNanoseconds (ds.takeWhile isDigit), ds.dropWhile isDigit)
    else (0, s)
  | [] => (0, s)

/-- Go `time.Parse(time.RFC3339, s)`, the layout-driven parser. It is more
tolerant than RFC 3339: the hour may have one digit, a comma may introduce the
fractional seconds, and the zone may be as large as `24:60`. -/
def parseLayoutRFC3339 (s : List Char) : Option Time :=
  match parseLayoutDate s with
  | none => none
  | some ((year, month, day), s1) =>
    match parseLayoutClock s1 with
    | none => none
    | some ((hour, minute, sec), s2) =>
      match parseZoneLayout (parseLayoutFrac s2).2 with
      | none => none
      | some (off, s3) =>
        if s3.isEmpty ∧ 1 ≤ month ∧ month ≤ 12 ∧ hour < 24 ∧ minute < 60 ∧ sec < 60 ∧
            1 ≤ day ∧ day ≤ daysIn month year then
          some ⟨year, month, day, hour, minute, sec, (parseLayoutFrac s2).1, off⟩
        else none

/-- Go `parseStrictRFC3339`, the parser of `Time.UnmarshalJSON`: the strict
parser, and when that fails the layout-driven one, whose result is returned
without the further checks (they are switched off in the Go source). -/
def parseStrictRFC3339 (s : List Char) : Option Time :=
  match parseRFC3339 s with
  | some t => some t
  | none => parseLayoutRFC3339 s

/-! ## `encoding/json` -/

/-- Errors returned by `json.Marshal` and `json.Unmarshal` for the `cache`
record. -/
inductive JSONError where
  /-- Go `*json.SyntaxError`: the input is not a single well-formed JSON value. -/
  | invalidJSON
  /-- Go `*json.UnmarshalTypeError`: a JSON value does not fit the Go type. -/
  | unmarshalType
  /-- The error of `Time.UnmarshalJSON`: not a JSON string, or not RFC 3339. -/
  | unmarshalTime
  /-- Go `*json.MarshalerError` wrapping the error of `Time.MarshalJSON`. -/
  | marshalTime
deriving DecidableEq, Repr

deriving instance DecidableEq for Except

/-- The Go struct `cache`. `Token` is a Go string: its bytes. -/
structure cache where
  Token : List Nat
  ExpiresAt : Time
deriving DecidableEq, Repr

/-- The zero value `cache{}` that `Get` decodes into. -/
def cache.zero : cache := ⟨[], Time.zero⟩

/-! ### Encoding -/

/-- Lower-case hexadecimal digit of `n % 16` (Go `hex[...]`). -/
def hexChar (n : Nat) : Char :=
  match n % 16 with
  | 0 => '0' | 1 => '1' | 2 => '2' | 3 => '3' | 4 => '4' | 5 => '5' | 6 => '6' | 7 => '7'
  | 8 => '8' | 9 => '9' | 10 => 'a' | 11 => 'b' | 12 => 'c' | 13 => 'd' | 14 => 'e' | _ => 'f'

/-- Go `htmlSafeSet`: the ASCII characters written without escaping. -/
def htmlSafe (c : Char) : Bool :=
  decide (0x20 ≤ c.toNat) && decide (c.toNat < 0x80) &&
    !(c == '"' || c == '\\' || c == '<' || c == '>' || c == '&')

/-- The JSON text of one character of a string (Go `appendString` with HTML
escaping, the setting of `json.Marshal`). -/
def encodeChar (c : Char) : List Char :=
  if c.toNat < 0x80 then
    if htmlSafe c then [c]
    else if c = '\\' ∨ c = '"' then ['\\', c]
    else if c = '\x08' then ['\\', 'b']
    else if c = '\x0c' then ['\\', 'f']
    else if c = '\n' then ['\\', 'n']
    else if c = '\r' then ['\\', 'r']
    else if c = '\t' then ['\\', 't']
    else ['\\', 'u', '0', '0', hexChar (c.toNat / 16), hexChar c.toNat]
  else if c.toNat = 0x2028 ∨ c.toNat = 0x2029 then
    ['\\', 'u', '2', '0', '2', hexChar c.toNat]
  else [c]

/-- The JSON text of a string that is given as text: each character encoded in
turn. -/
def encodeChars : List Char → List Char
  | [] => []
  | c :: cs => encodeChar c ++ encodeChars cs

/-- Go `utf8.EncodeRune`: the UTF-8 bytes of a character. -/
def encodeRune (c : Char) : List Nat :=
  if c.toNat < 0x80 then [c.toNat]
  else if c.toNat < 0x800 then [0xc0 + c.toNat / 64, 0x80 + c.toNat % 64]
  else if c.toNat < 0x10000 then
    [0xe0 + c.toNat / 4096, 0x80 + c.toNat / 64 % 64, 0x80 + c.toNat % 64]
  else
    [0xf0 + c.toNat / 262144, 0x80 + c.toNat / 4096 % 64, 0x80 + c.toNat / 64 % 64,
      0x80 + c.toNat % 64]

/-- The Go string holding a text: its UTF-8 bytes. -/
def utf8 : List Char → List Nat
  | [] => []
  | c :: cs => encodeRune c ++ utf8 cs

/-- The length of the UTF-8 sequence that the leading byte `b0` announces (Go
table `first`): 1 for ASCII, 0 for a byte that cannot lead. -/
def runeSize (b0 : Nat) : Nat :=
  if b0 < 0x80 then 1
  else if b0 < 0xc2 then 0
  else if b0 < 0xe0 then 2
  else if b0 < 0xf0 then 3
  else if b0 < 0xf5 then 4
  else 0

/-- Lower bound for the second byte after the leading byte `b0` (Go
`acceptRanges`). -/
def acceptLo (b0 : Nat) : Nat :=
  if b0 = 0xe0 then 0xa0 else if b0 = 0xf0 then 0x90 else 0x80

/-- Upper bound for the second byte after the leading byte `b0` (Go
`acceptRanges`). -/
def acceptHi (b0 : Nat) : Nat :=
  if b0 = 0xed then 0x9f else if b0 = 0xf4 then 0x8f else 0xbf

/-- A continuation byte, between Go `locb` and `hicb`. -/
def isCont (b : Nat) : Bool := decide (0x80 ≤ b) && decide (b ≤ 0xbf)

/-- Go `utf8.DecodeRuneInString`: the first character of the bytes and its
width. `none` with width 1 is the result `(RuneError, 1)` for bytes that are
not well-formed UTF-8. -/
def decodeRune (bs : List Nat) : Option Char × Nat :=
  match bs with
  | [] => (none, 0)
  | b0 :: rest =>
    if runeSize b0 = 1 then (some (Char.ofNat b0), 1)
    else if runeSize b0 = 0 ∨ rest.length + 1 < runeSize b0 then (none, 1)
    else
      match rest with
      | [] => (none, 1)
      | b1 :: r1 =>
        if b1 < acceptLo b0 ∨ acceptHi b0 < b1 then (none, 1)
        else if runeSize b0 ≤ 2 then (some (Char.ofNat (b0 % 32 * 64 + b1 % 64)), 2)
        else
          match r1 with
          | [] => (none, 1)
          | b2 :: r2 =>
            if isCont b2 = false then (none, 1)
            else if runeSize b0 ≤ 3 then
              (some (Char.ofNat (b0 % 16 * 4096 + b1 % 64 * 64 + b2 % 64)), 3)
            else
              match r2 with
              | [] => (none, 1)
              | b3 :: _ =>
                if isCont b3 = false then (none, 1)
                else
                  (some (Char.ofNat
                    (b0 % 8 * 262144 + b1 % 64 * 4096 + b2 % 64 * 64 + b3 % 64)), 4)

/-- Go `appendString` of `encoding/json`, the characters between the quotes,
after dropping `skip` bytes: an ASCII byte and a well-formed character are
written as `encodeChar` says, and a byte that is not well-formed UTF-8 is
written as the escape of U+FFFD. -/
def appendString : Nat → List Nat → List Char
  | _, [] => []
  | skip + 1, _ :: rest => appendString skip rest
  | 0, b :: rest =>
    if b < 0x80 then encodeChar (Char.ofNat b) ++ appendString 0 rest
    else
      match decodeRune (b :: rest) with
      | (none, _) => ['\\', 'u', 'f', 'f', 'f', 'd'] ++ appendString 0 rest
      | (some c, size) => encodeChar c ++ appendString (size - 1) rest

/-- The time as `Time.MarshalJSON` writes it: the same civil reading, with the
zone offset cut to the whole minutes that the text carries. -/
def Time.written (t : Time) : Time := { t with offset := zoneMinutes t.offset * 60 }

/-- Go `Time.MarshalJSON`: the quoted RFC 3339 form; fails when the year is
outside `[0,9999]` or the hour of the written zone is outside `[0,23]`. -/
def Time.MarshalJSON (t : Time) : Option (List Char) :=
  if 0 ≤ t.year ∧ t.year ≤ 9999 ∧ (zoneMinutes t.offset).natAbs / 60 < 24 then
    some ('"' :: (appendFormatRFC3339 t ++ ['"']))
  else none

/-- Go `json.Marshal(c)` for `c *cache`: the object with the members `token`
and `expiresAt` in field order, without white space. -/
def Marshal (c : cache) : Except JSONError (List Char) :=
  match c.ExpiresAt.MarshalJSON with
  | some ts =>
    .ok (['{', '"', 't', 'o', 'k', 'e', 'n', '"', ':', '"'] ++ appendString 0 c.Token ++
      ['"', ',', '"', 'e', 'x', 'p', 'i', 'r', 'e', 's', 'A', 't', '"', ':'] ++ ts ++ ['}'])
  | none => .error .marshalTime

/-! ### Decoding -/

/-- A parsed JSON value. String values and object keys keep their raw text
(the characters between the quotes, escapes not yet resolved). -/
inductive JValue where
  | null
  | bool (b : Bool)
  | number
  | string (raw : List Char)
  | array (elems : List JValue)
  | object (members : List (List Char × JValue))

instance : Inhabited JValue := ⟨.null⟩

/-- JSON white space (Go `isSpace`). -/
def isSpace (c : Char) : Bool :=
  c == ' ' || c == '\t' || c == '\r' || c == '\n'

def skipSpace (s : List Char) : List Char := s.dropWhile isSpace

def isHex (c : Char) : Bool :=
  isDigit c || c == 'a' || c == 'b' || c == 'c' || c == 'd' || c == 'e' || c == 'f' ||
    c == 'A' || c == 'B' || c == 'C' || c == 'D' || c == 'E' || c == 'F'

/-- The characters allowed after a backslash other than `u`. -/
def isSimpleEscape (c : Char) : Bool :=
  c == '"' || c == '\\' || c == '/' || c == 'b' || c == 'f' || c == 'n' || c == 'r' || c == 't'

/-- The states of the Go scanner inside a string literal: `stateInString`,
`stateInStringEsc`, and `stateInStringEscU`, `…U1`, `…U12`, `…U123`. -/
inductive StringState where
  | inString
  | inStringEsc
  | inStringEscU
  | inStringEscU1
  | inStringEscU12
  | inStringEscU123
deriving DecidableEq, Repr

/-- Puts a scanned character in front of the raw text found behind it. -/
def consRaw (c : Char) (r : Option (List Char × List Char)) : Option (List Char × List Char) :=
  r.map (fun p => (c :: p.1, p.2))

/-- Runs the string states of the Go scanner: returns the raw text up to the
closing quote and the input after it. Control characters and malformed escapes
are rejected. -/
def scanStringFrom : StringState → List Char → Option (List Char × List Char)
  | _, [] => none
  | .inString, c :: rest =>
    if c = '"' then some ([], rest)
    else if c = '\\' then consRaw c (scanStringFrom .inStringEsc rest)
    else if c.toNat < 0x20 then none
    else consRaw c (scanStringFrom .inString rest)
  | .inStringEsc, c :: rest =>
    if c = 'u' then consRaw c (scanStringFrom .inStringEscU rest)
    else if isSimpleEscape c then consRaw c (scanStringFrom .inString rest)
    else none
  | .inStringEscU, c :: rest =>
    if isHex c then consRaw c (scanStringFrom .inStringEscU1 rest) else none
  | .inStringEscU1, c :: rest =>
    if isHex c then consRaw c (scanStringFrom .inStringEscU12 rest) else none
  | .inStringEscU12, c :: rest =>
    if isHex c then consRaw c (scanStringFrom .inStringEscU123 rest) else none
  | .inStringEscU123, c :: rest =>
    if isHex c then consRaw c (scanStringFrom .inString rest) else none

/-- Scans a string literal after its opening quote. -/
def scanString (s : List Char) : Option (List Char × List Char) :=
  scanStringFrom .inString s

/-- Skips one or more digits. -/
def scanDigits (s : List Char) : Option (List Char) :=
  match s with
  | c :: rest => if isDigit c then some (rest.dropWhile isDigit) else none
  | [] => none

/-- The integer part of a number: `0`, or a digit from 1 to 9 and more digits. -/
def scanInt (s : List Char) : Option (List Char) :=
  match s with
  | c :: r => if c = '0' then some r else scanDigits s
  | [] => none

/-- The optional fraction of a number: a period and digits. -/
def scanFrac (s : List Char) : Option (List Char) :=
  match s with
  | c :: r => if c = '.' then scanDigits r else some s
  | [] => some s

/-- The optional exponent of a number: `e` or `E`, an optional sign, digits. -/
def scanExp (s : List Char) : Option (List Char) :=
  match s with
  | c :: r =>
    if c = 'e' ∨ c = 'E' then
      match r with
      | sg :: r1 => if sg = '+' ∨ sg = '-' then scanDigits r1 else scanDigits r
      | [] => none
    else some s
  | [] => some s

/-- Scans a number literal (`-? int frac? exp?`) and returns the input after it. -/
def scanNumber (s : List Char) : Option (List Char) :=
  let s1 : List Char :=
    match s with
    | c :: r => if c = '-' then r else s
    | [] => s
  match scanInt s1 with
  | none => none
  | some s2 =>
    match scanFrac s2 with
    | none => none
    | some s3 => scanExp s3

/-- Go `maxNestingDepth`. -/
def maxNestingDepth : Nat := 10000

mutual
/-- Parses one JSON value at the head of the input (no leading white space)
inside `depth` enclosing arrays and objects. -/
def parseValue : Nat → Nat → List Char → Option (JValue × List Char)
  | 0, _, _ => none
  | fuel + 1, depth, s =>
    match s with
    | [] => none
    | c :: rest =>
      if c = '{' then
        if maxNestingDepth ≤ depth then none
        else
          match skipSpace rest with
          | '}' :: r => some (.object [], r)
          | r => parseMembers fuel (depth + 1) r
      else if c = '[' then
        if maxNestingDepth ≤ depth then none
        else
          match skipSpace rest with
          | ']' :: r => some (.array [], r)
          | r => parseElems fuel (depth + 1) r
      else if c = '"' then
        (scanString rest).map (fun p => (.string p.1, p.2))
      else if c = 't' then
        match rest with
        | 'r' :: 'u' :: 'e' :: r => some (.bool true, r)
        | _ => none
      else if c = 'f' then
        match rest with
        | 'a' :: 'l' :: 's' :: 'e' :: r => some (.bool false, r)
        | _ => none
      else if c = 'n' then
        match rest with
        | 'u' :: 'l' :: 'l' :: r => some (.null, r)
        | _ => none
      else (scanNumber s).map (fun r => (.number, r))
/-- Parses `"key" : value (, "key" : value)* }` (no leading white space). -/
def parseMembers : Nat → Nat → List Char → Option (JValue × List Char)
  | 0, _, _ => none
  | fuel + 1, depth, s =>
    match s with
    | '"' :: r =>
      match scanString r with
      | none => none
      | some (key, r1) =>
        match skipSpace r1 with
        | ':' :: r2 =>
          match parseValue fuel depth (skipSpace r2) with
          | none => none
          | some (v, r3) =>
            match skipSpace r3 with
            | '}' :: r4 => some (.object [(key, v)], r4)
            | ',' :: r4 =>
              match parseMembers fuel depth (skipSpace r4) with
              | some (.object ms, r5) => some (.object ((key, v) :: ms), r5)
              | _ => none
            | _ => none
        | _ => none
    | _ => none
/-- Parses `value (, value)* ]` (no leading white space). -/
def parseElems : Nat → Nat → List Char → Option (JValue × List Char)
  | 0, _, _ => none
  | fuel + 1, depth, s =>
    match parseValue fuel depth s with
    | none => none
    | some (v, r1) =>
      match skipSpace r1 with
      | ']' :: r2 => some (.array [v], r2)
      | ',' :: r2 =>
        match parseElems fuel depth (skipSpace r2) with
        | some (.array vs, r3) => some (.array (v :: vs), r3)
        | _ => none
      | _ => none
end

/-- The input as a single JSON value surrounded by optional white space (Go
`checkValid`); `none` is a syntax error. Fuel above twice the length of the
input is never used up (`parse_fuel`). -/
def parseJSON (data : List Char) : Option JValue :=
  match parseValue (2 * data.length + 1) 0 (skipSpace data) with
  | some (v, rest) => if (skipSpace rest).isEmpty then some v else none
  | none => none

/-- Value of a hexadecimal digit. -/
def hexVal (c : Char) : Nat :=
  match digitVal c with
  | some d => d
  | none =>
    if c = 'a' ∨ c = 'A' then 10 else if c = 'b' ∨ c = 'B' then 11
    else if c = 'c' ∨ c = 'C' then 12 else if c = 'd' ∨ c = 'D' then 13
    else if c = 'e' ∨ c = 'E' then 14 else 15

/-- Go `getu4` on four hexadecimal digits. -/
def getu4 (h1 h2 h3 h4 : Char) : Nat :=
  ((hexVal h1 * 16 + hexVal h2) * 16 + hexVal h3) * 16 + hexVal h4

/-- The character denoted by a simple escape. -/
def unescape (e : Char) : Char :=
  if e = 'b' then '\x08' else if e = 'f' then '\x0c' else if e = 'n' then '\n'
  else if e = 'r' then '\r' else if e = 't' then '\t' else e

/-- Unicode replacement character, Go `unicode.ReplacementChar`. -/
def replacementChar : Char := Char.ofNat 0xfffd

/-- The second half of a `\u` surrogate pair at the head of the input: the
value of a following `\uXXXX` when it is a low surrogate. -/
def lowSurrogate (s : List Char) : Option Nat :=
  match s with
  | b :: u :: g1 :: g2 :: g3 :: g4 :: _ =>
    if b = '\\' ∧ u = 'u' ∧ 0xdc00 ≤ getu4 g1 g2 g3 g4 ∧ getu4 g1 g2 g3 g4 < 0xe000 then
      some (getu4 g1 g2 g3 g4)
    else none
  | _ => none

/-- The escape after a backslash (Go `unquoteBytes`, case `'\\'`): the
character it denotes and how many characters of the input it takes. A `\u`
surrogate pair becomes one character and takes the second `\uXXXX` too; an
unpaired surrogate becomes U+FFFD. -/
def decodeEscape (s : List Char) : Option (Char × Nat) :=
  match s with
  | [] => none
  | e :: rest1 =>
    if e = 'u' then
      match rest1 with
      | h1 :: h2 :: h3 :: h4 :: rest2 =>
        if 0xd800 ≤ getu4 h1 h2 h3 h4 ∧ getu4 h1 h2 h3 h4 < 0xe000 then
          match (if getu4 h1 h2 h3 h4 < 0xdc00 then lowSurrogate rest2 else none) with
          | some lo =>
            some (Char.ofNat ((getu4 h1 h2 h3 h4 - 0xd800) * 1024 + (lo - 0xdc00) + 0x10000), 11)
          | none => some (replacementChar, 5)
        else some (Char.ofNat (getu4 h1 h2 h3 h4), 5)
      | _ => none
    else some (unescape e, 1)

/-- Go `unquoteBytes` on the raw text of a scanned string literal, after
dropping `skip` characters: resolves the escapes and copies the rest. -/
def unquoteFrom : Nat → List Char → List Char
  | _, [] => []
  | skip + 1, _ :: rest => unquoteFrom skip rest
  | 0, c :: rest =>
    if c = '\\' then
      match decodeEscape rest with
      | some (r, n) => r :: unquoteFrom n rest
      | none => []
    else c :: unquoteFrom 0 rest

/-- Go `unquoteBytes` on the raw text of a scanned string literal. -/
def unquote (raw : List Char) : List Char := unquoteFrom 0 raw

/-- One step of Go `equalFoldRight`: does the key character `tb` match the
ASCII field-name character `sb`, ignoring case? The Kelvin sign matches `k` and
the long s matches `s`. -/
def foldMatch (sb tb : Char) : Bool :=
  if tb.toNat < 0x80 then
    sb == tb ||
      (decide (0x41 ≤ sb.toNat &&& 0xdf) && decide (sb.toNat &&& 0xdf ≤ 0x5a) &&
        decide (sb.toNat &&& 0xdf = tb.toNat &&& 0xdf))
  else if sb = 's' ∨ sb = 'S' then decide (tb.toNat = 0x17f)
  else if sb = 'k' ∨ sb = 'K' then decide (tb.toNat = 0x212a)
  else false

/-- Go `equalFoldRight name key` for an ASCII field name. -/
def equalFold : List Char → List Char → Bool
  | [], [] => true
  | sb :: s, tb :: t => foldMatch sb tb && equalFold s t
  | _, _ => false

/-- The fields of `cache`, named by their JSON tags. -/
inductive Field where
  | Token
  | ExpiresAt
deriving DecidableEq, Repr

def Field.name : Field → List Char
  | .Token => ['t', 'o', 'k', 'e', 'n']
  | .ExpiresAt => ['e', 'x', 'p', 'i', 'r', 'e', 's', 'A', 't']

/-- Field selection of the decoder: an exact match of the JSON tag, else the
first field whose tag matches ignoring case. -/
def lookupField (key : List Char) : Option Field :=
  if key = Field.name .Token then some .Token
  else if key = Field.name .ExpiresAt then some .ExpiresAt
  else if equalFold (Field.name .Token) key then some .Token
  else if equalFold (Field.name .ExpiresAt) key then some .ExpiresAt
  else none

/-- Go `Time.UnmarshalJSON`: `null` leaves the value alone, a string is parsed
from its raw text (escapes are not resolved), anything else is not a JSON
string. -/
def Time.UnmarshalJSON (t : Time) (v : JValue) : Option Time :=
  match v with
  | .null => some t
  | .string raw => parseStrictRFC3339 raw
  | _ => none

/-- Decoding the members of the top-level object into `c`, in input order.
`saved` is `d.savedError`: a type mismatch on `token` is recorded (the first one
is kept) and decoding goes on, while an error of `Time.UnmarshalJSON` stops it.
Members with an unknown key are skipped; `null` leaves the field as it is. -/
def decodeMembers : List (List Char × JValue) → cache → Option JSONError →
    Except JSONError (cache × Option JSONError)
  | [], c, saved => .ok (c, saved)
  | (key, v) :: ms, c, saved =>
    match lookupField (unquote key) with
    | none => decodeMembers ms c saved
    | some .Token =>
      match v with
      | .string raw => decodeMembers ms { c with Token := utf8 (unquote raw) } saved
      | .null => decodeMembers ms c saved
      | _ => decodeMembers ms c (saved.orElse (fun _ => some .unmarshalType))
    | some .ExpiresAt =>
      match c.ExpiresAt.UnmarshalJSON v with
      | some t => decodeMembers ms { c with ExpiresAt := t } saved
      | none => .error .unmarshalTime

/-- Go `json.Unmarshal(data, c)` for `c *cache` holding the value `c`: the
decoded record, or the error. A top-level `null` changes nothing; any other
top-level value that is not an object is a type mismatch. -/
def Unmarshal (data : List Char) (c : cache) : Except JSONError cache :=
  match parseJSON data with
  | none => .error .invalidJSON
  | some (.object ms) =>
    match decodeMembers ms c none with
    | .error err => .error err
    | .ok (c1, none) => .ok c1
    | .ok (_, some err) => .error err
  | some .null => .ok c
  | some _ => .error .unmarshalType

/-! ## Files -/

/-- Errors of `ioutil.ReadFile` and `ioutil.WriteFile` (`*os.PathError`). -/
inductive PathError where
  /-- No such file or directory (`ENOENT`). -/
  | notExist
  /-- Permission denied (`EACCES`). -/
  | permission
  /-- Any other errno. -/
  | errno (n : Nat)
deriving DecidableEq, Repr

/-- State of the file system: the contents of the regular file at each path
(`none`: no file there), and for each path whether reading or writing it
currently fails and with which error. -/
structure FileSys where
  files : String → Option (List Char)
  readFault : String → Option PathError
  writeFault : String → Option PathError

/-- Go `ioutil.ReadFile(path)`. -/
def ReadFile (fs : FileSys) (path : String) : Except PathError (List Char) :=
  match fs.readFault path with
  | some err => .error err
  | none =>
    match fs.files path with
    | none => .error .notExist
    | some data => .ok data

/-- Go `ioutil.WriteFile(path, data, 0600)`: creates the file or replaces its
whole contents. A failing write is taken to fail before it changes the file. -/
def WriteFile (fs : FileSys) (path : String) (data : List Char) : Option PathError × FileSys :=
  match fs.writeFault path with
  | some err => (some err, fs)
  | none => (none, { fs with files := fun p => if p = path then some data else fs.files p })

/-! ## The token cache -/

/-- Errors returned by `File.Get` and `File.Set`. -/
inductive Error where
  /-- Modelled from the spec: the sentinel error `ErrTokenNotExist` of the
  package, declared outside `file.go`. -/
  | ErrTokenNotExist
  /-- Modelled from the spec: the sentinel error `ErrTokenExpired` of the
  package, declared outside `file.go`. -/
  | ErrTokenExpired
  /-- An error of `ioutil.ReadFile` or `ioutil.WriteFile`, passed on as it is. -/
  | path (err : PathError)
  /-- An error of `json.Marshal`, passed on as it is. -/
  | json (err : JSONError)
  /-- The value of `fmt.Errorf("Error unmarshaling token: %s", err)`. -/
  | unmarshaling (err : JSONError)
deriving DecidableEq, Repr

/-- The Go struct `File`. The mutex `lock` is held for the whole of `Get` and
of `Set`, so each call is one step on the file-system state. -/
structure File where
  path : String
deriving DecidableEq, Repr

/-- Go `NewFile`: panics (`none`) on an empty path. -/
def NewFile (path : String) : Option File :=
  if path.length = 0 then none else some { path := path }

/-- Go `(*File).Get`, run on the file system `fs` with `time.Now()` reading
`now`. The result is the pair `(token, err)`; `none` is the `nil` error. -/
def File.Get (f : File) (fs : FileSys) (now : Time) : List Nat × Option Error :=
  match ReadFile fs f.path with
  | .error err => ([], some (.path err))
  | .ok contents =>
    if contents.length = 0 then ([], some .ErrTokenNotExist)
    else
      match Unmarshal contents cache.zero with
      | .error err => ([], some (.unmarshaling err))
      | .ok c =>
        if now.After c.ExpiresAt then ([], some .ErrTokenExpired)
        else (c.Token, none)

/-- Go `(*File).Set`: the returned error (`none` is `nil`) and the file system
after the call. -/
def File.Set (f : File) (fs : FileSys) (token : List Nat) (expiresAt : Time) :
    Option Error × FileSys :=
  match Marshal { Token := token, ExpiresAt := expiresAt } with
  | .error err => (some (.json err), fs)
  | .ok b =>
    match WriteFile fs f.path b with
    | (some err, fs1) => (some (.path err), fs1)
    | (none, fs1) => (none, fs1)

/-! ## Auxiliary predicates used in the statements -/

/-- A character that may stand for itself inside a string literal. -/
def isPlain (c : Char) : Bool := c != '"' && c != '\\' && !decide (c.toNat < 0x20)

/-- A member of the top-level object that `json.Unmarshal` rejects: a `token`
that is neither a string nor `null`, or an `expiresAt` that is neither `null`
nor a string that `parseStrictRFC3339` reads as a timestamp. -/
def badMember (m : List Char × JValue) : Bool :=
  match lookupField (unquote m.1) with
  | some .Token =>
    match m.2 with
    | .string _ => false
    | .null => false
    | _ => true
  | some .ExpiresAt =>
    match m.2 with
    | .null => false
    | .string raw => (parseStrictRFC3339 raw).isNone
    | _ => true
  | none => false

/-- File content that is not a token record: not valid JSON, or a top-level
array, string, number or boolean, or an object with a rejected member. -/
def corrupt (data : List Char) : Bool :=
  match parseJSON data with
  | none => true
  | some .null => false
  | some (.object ms) => ms.any badMember
  | some _ => true

/-- A file system without files and without faults. -/
def emptyFS : FileSys :=
  { files := fun _ => none, readFault := fun _ => none, writeFault := fun _ => none }

/-- A file system whose every path holds the text `data`, without faults. -/
def fsHolding (data : String) : FileSys :=
  { files := fun _ => some data.toList, readFault := fun _ => none, writeFault := fun _ => none }

/-- The cache file used in the examples. -/
def tokenFile : File := { path := "token.json" }

/-- Noon on 2026-11-01, UTC. -/
def noon : Time := ⟨2026, 11, 1, 12, 0, 0, 0, 0⟩

/-- One hour after `noon`: 2026-11-01T13:00:00Z. -/
def noonPlusHour : Time := ⟨2026, 11, 1, 13, 0, 0, 0, 0⟩

/-- One second before `noon`: 2026-11-01T11:59:59Z. -/
def noonMinusSecond : Time := ⟨2026, 11, 1, 11, 59, 59, 0, 0⟩

/-- A stored record whose `expiresAt` is `noon`. -/
def expiringAtNoon : String :=
  "\x7b\"token\":\"abc123\",\"expiresAt\":\"2026-11-01T12:00:00Z\"\x7d"

/-- A stored record with an empty token that expires in the year 2999. -/
def emptyTokenRecord : String :=
  "\x7b\"token\":\"\",\"expiresAt\":\"2999-01-01T00:00:00Z\"\x7d"

/-- A stored record whose token is JSON `null`, expiring in the year 2999. -/
def nullTokenRecord : String :=
  "\x7b\"token\":null,\"expiresAt\":\"2999-01-01T00:00:00Z\"\x7d"

/-- A time that `Time.MarshalJSON` rejects: the year 10000. -/
def yearTenThousand : Time := ⟨10000, 1, 1, 0, 0, 0, 0, 0⟩

/-- A file system on which every read fails with "permission denied". -/
def unreadableFS : FileSys :=
  { files := fun _ => some ['x'], readFault := fun _ => some .permission,
    writeFault := fun _ => none }

/-- The Go string `"abc123"`. -/
def abc123 : List Nat := [97, 98, 99, 49, 50, 51]

/-- The instant 2026-11-01T12:00:30Z, thirty seconds after `noon`, held in the
zone `time.FixedZone("", -59)`: the clock there reads 11:59:31. -/
def aheadInOddZone : Time := ⟨2026, 11, 1, 11, 59, 31, 0, -59⟩

/-- The instant 2026-11-01T11:59:59Z, one second before `noon`, held in the
zone `time.FixedZone("", 59)`: the clock there reads 12:00:58. -/
def pastInOddZone : Time := ⟨2026, 11, 1, 12, 0, 58, 0, 59⟩

/-! ## Lemmas: RFC 3339 round trip -/

theorem digitVal_digitChar (n : Nat) : digitVal (digitChar n) = some (n % 10) := by
  have h : n % 10 < 10 := Nat.mod_lt _ (by decide)
  unfold digitChar
  generalize n % 10 = k at h
  interval_cases k <;> rfl

theorem isDigit_digitChar (n : Nat) : isDigit (digitChar n) = true := by
  simp [isDigit, digitVal_digitChar]

theorem parseUint_appendInt2 (n lo hi : Nat) (hn : n < 100) (h1 : lo ≤ n) (h2 : n ≤ hi) :
    parseUint (appendInt2 n) lo hi = some n := by
  have e : n / 10 % 10 * 10 + n % 10 = n := by omega
  simp [parseUint, appendInt2, List.foldlM, digitVal_digitChar, e, h1, h2]

theorem parseUint_appendInt4 (n : Nat) (hn : n ≤ 9999) :
    parseUint (appendInt4 n) 0 9999 = some n := by
  have e : ((n / 1000 % 10 * 10 + n / 100 % 10) * 10 + n / 10 % 10) * 10 + n % 10 = n := by omega
  simp [parseUint, appendInt4, List.foldlM, digitVal_digitChar, e, hn]

theorem decVal_concat (l : List Char) (c : Char) :
    decVal (l ++ [c]) = decVal l * 10 + (digitVal c).getD 0 := by
  simp [decVal, List.foldl_append]

theorem rdropWhile_zero_length_le (l : List Char) :
    (l.rdropWhile (fun c => c == '0')).length ≤ l.length := by
  have := (List.rdropWhile_prefix (fun c => c == '0') l).length_le
  exact this

theorem decVal_rdropWhile (l : List Char) :
    decVal (l.rdropWhile (fun c => c == '0')) *
      10 ^ (l.length - (l.rdropWhile (fun c => c == '0')).length) = decVal l := by
  induction l using List.reverseRecOn with
  | nil => simp [decVal]
  | append_singleton init x ih =>
    by_cases hx : x = '0'
    · subst hx
      rw [List.rdropWhile_concat_pos _ _ _ (by simp)]
      have hle := rdropWhile_zero_length_le init
      rw [decVal_concat, List.length_append, List.length_singleton]
      have e : init.length + 1 - (init.rdropWhile (fun c => c == '0')).length
          = (init.length - (init.rdropWhile (fun c => c == '0')).length) + 1 := by omega
      rw [e, pow_succ, ← mul_assoc, ih]
      simp [digitVal]
    · rw [List.rdropWhile_concat_neg _ _ _ (by simpa using hx)]
      simp

theorem all_isDigit_appendInt9 (n : Nat) : ∀ c ∈ appendInt9 n, isDigit c = true := by
  intro c hc
  simp only [appendInt9, List.mem_cons, List.mem_singleton, List.not_mem_nil, or_false] at hc
  rcases hc with h | h | h | h | h | h | h | h | h <;> subst h <;> exact isDigit_digitChar _

theorem decVal_appendInt9 (n : Nat) (hn : n < 1000000000) : decVal (appendInt9 n) = n := by
  simp only [decVal, appendInt9, List.foldl, digitVal_digitChar, Option.getD_some]
  omega

theorem trimmed_ne_nil (n : Nat) (h0 : n ≠ 0) (hn : n < 1000000000) :
    (appendInt9 n).rdropWhile (fun c => c == '0') ≠ [] := by
  intro h
  have := decVal_rdropWhile (appendInt9 n)
  rw [h, decVal_appendInt9 n hn] at this
  simp [decVal] at this
  exact h0 this.symm

theorem trimmed_all_digits (n : Nat) :
    ∀ c ∈ (appendInt9 n).rdropWhile (fun c => c == '0'), isDigit c = true := by
  intro c hc
  exact all_isDigit_appendInt9 n c ((List.rdropWhile_prefix _ _).subset hc)

theorem parseNanoseconds_trimmed (n : Nat) (hn : n < 1000000000) :
    parseNanoseconds ((appendInt9 n).rdropWhile (fun c => c == '0')) = n := by
  have hle := rdropWhile_zero_length_le (appendInt9 n)
  have hlen : (appendInt9 n).length = 9 := rfl
  rw [hlen] at hle
  unfold parseNanoseconds
  rw [List.take_of_length_le hle]
  have := decVal_rdropWhile (appendInt9 n)
  rw [hlen, decVal_appendInt9 n hn] at this
  exact this

theorem appendZone_head (off : Int) :
    ∃ c rest, appendZone off = c :: rest ∧ isDigit c = false ∧ c ≠ '.' := by
  unfold appendZone
  split
  · exact ⟨'Z', [], rfl, by decide, by decide⟩
  · split
    · exact ⟨'-', _, rfl, by decide, by decide⟩
    · exact ⟨'+', _, rfl, by decide, by decide⟩

theorem parseZone_appendZone (off : Int) (h : (zoneMinutes off).natAbs / 60 < 24) :
    parseZone (appendZone off) = some (zoneMinutes off * 60) := by
  have hm : (zoneMinutes off).natAbs % 60 < 60 := Nat.mod_lt _ (by decide)
  have e1 := parseUint_appendInt2 ((zoneMinutes off).natAbs / 60) 0 23
    (by omega) (by omega) (by omega)
  have e2 := parseUint_appendInt2 ((zoneMinutes off).natAbs % 60) 0 59
    (by omega) (by omega) (by omega)
  unfold appendInt2 at e1 e2
  unfold appendZone
  split
  · next h0 => subst h0; rfl
  · generalize zoneMinutes off = z at *
    split
    · next h0 h1 =>
      simp only [appendInt2, List.cons_append, List.nil_append, parseZone, e1, e2, ↓reduceIte,
        Option.some.injEq, reduceCtorEq, Char.reduceEq]
      omega
    · next h0 h1 =>
      simp only [appendInt2, List.cons_append, List.nil_append, parseZone, e1, e2, ↓reduceIte,
        Option.some.injEq, reduceCtorEq, Char.reduceEq]
      omega

theorem parseRFC3339_frac (nsec : Nat) (off : Int) (hn : nsec < 1000000000)
    (y mo d h mi s : Nat) (hoff : (zoneMinutes off).natAbs / 60 < 24) :
    (parseZone
        (if (match appendNano nsec ++ appendZone off with
              | '.' :: ds => if (ds.takeWhile isDigit).isEmpty then [] else ds.takeWhile isDigit
              | _ => []).isEmpty then appendNano nsec ++ appendZone off
         else (appendNano nsec ++ appendZone off).drop
          ((match appendNano nsec ++ appendZone off with
              | '.' :: ds => if (ds.takeWhile isDigit).isEmpty then [] else ds.takeWhile isDigit
              | _ => []).length + 1))).map
      (fun z => (⟨y, mo, d, h, mi, s,
        (if (match appendNano nsec ++ appendZone off with
              | '.' :: ds => if (ds.takeWhile isDigit).isEmpty then [] else ds.takeWhile isDigit
              | _ => []).isEmpty then 0
         else parseNanoseconds
          (match appendNano nsec ++ appendZone off with
              | '.' :: ds => if (ds.takeWhile isDigit).isEmpty then [] else ds.takeWhile isDigit
              | _ => [])), z⟩ : Time))
      = some ⟨y, mo, d, h, mi, s, nsec, zoneMinutes off * 60⟩ := by
  obtain ⟨c, zrest, hz, hc, hdot⟩ := appendZone_head off
  by_cases h0 : nsec = 0
  · subst h0
    have e : appendNano 0 ++ appendZone off = c :: zrest := by simp [appendNano, hz]
    have hm : (match c :: zrest with
              | '.' :: ds => if (ds.takeWhile isDigit).isEmpty then [] else ds.takeWhile isDigit
              | _ => []) = [] := by
      split
      · next heq => simp at heq; exact absurd heq.1 hdot
      · rfl
    rw [e, hm]
    simp only [List.isEmpty_nil, ↓reduceIte]
    rw [← hz, parseZone_appendZone off hoff]
    rfl
  · have htw : ((appendInt9 nsec).rdropWhile (fun c => c == '0') ++ appendZone off).takeWhile isDigit
        = (appendInt9 nsec).rdropWhile (fun c => c == '0') := by
      rw [List.takeWhile_append_of_pos (trimmed_all_digits nsec), hz]
      simp [List.takeWhile, hc]
    have hne := trimmed_ne_nil nsec h0 hn
    have e : appendNano nsec ++ appendZone off
        = '.' :: ((appendInt9 nsec).rdropWhile (fun c => c == '0') ++ appendZone off) := by
      simp [appendNano, h0]
    have hm : (match '.' :: ((appendInt9 nsec).rdropWhile (fun c => c == '0') ++ appendZone off) with
              | '.' :: ds => if (ds.takeWhile isDigit).isEmpty then [] else ds.takeWhile isDigit
              | _ => []) = (appendInt9 nsec).rdropWhile (fun c => c == '0') := by
      simp only [htw]
      simp [hne]
    rw [e, hm]
    simp only [List.isEmpty_eq_true, hne, ↓reduceIte, parseNanoseconds_trimmed nsec hn]
    have hd : ('.' :: ((appendInt9 nsec).rdropWhile (fun c => c == '0') ++ appendZone off)).drop
        (((appendInt9 nsec).rdropWhile (fun c => c == '0')).length + 1) = appendZone off := by
      simp
    rw [hd, parseZone_appendZone off hoff]
    rfl

theorem parseRFC3339_appendFormatRFC3339 (t : Time) (hv : t.Valid)
    (hy0 : 0 ≤ t.year) (hy1 : t.year ≤ 9999) (hoff : (zoneMinutes t.offset).natAbs / 60 < 24) :
    parseRFC3339 (appendFormatRFC3339 t) = some t.written := by
  obtain ⟨hm1, hm2, hd1, hd2, hh, hmi, hs, hns⟩ := hv
  have hdi : daysIn t.month t.year ≤ 31 := by
    unfold daysIn; split
    · split <;> omega
    · split <;> omega
  have ey := parseUint_appendInt4 t.year.toNat (by omega)
  have hyc : ((t.year.toNat : Nat) : Int) = t.year := Int.toNat_of_nonneg hy0
  have emo := parseUint_appendInt2 t.month 1 12 (by omega) hm1 hm2
  have ed := parseUint_appendInt2 t.day 1 (daysIn t.month t.year) (by omega) hd1 hd2
  have eh := parseUint_appendInt2 t.hour 0 23 (by omega) (by omega) (by omega)
  have emi := parseUint_appendInt2 t.minute 0 59 (by omega) (by omega) (by omega)
  have es := parseUint_appendInt2 t.second 0 59 (by omega) (by omega) (by omega)
  unfold appendInt2 at emo ed eh emi es
  unfold appendInt4 at ey
  have := parseRFC3339_frac t.nsec t.offset hns t.year.toNat t.month t.day t.hour t.minute
    t.second hoff
  simp only [appendFormatRFC3339, appendInt4, appendInt2, List.cons_append, List.nil_append,
    List.append_assoc, parseRFC3339, ey, emo, hyc, ed, eh, emi, es, and_self, ↓reduceIte]
  simp only [hyc] at this
  exact this

theorem hexVal_hexChar (n : Nat) : hexVal (hexChar n) = n % 16 := by
  have h : n % 16 < 16 := Nat.mod_lt _ (by decide)
  unfold hexChar
  generalize n % 16 = k at h
  interval_cases k <;> rfl

theorem isHex_hexChar (n : Nat) : isHex (hexChar n) = true := by
  have h : n % 16 < 16 := Nat.mod_lt _ (by decide)
  unfold hexChar
  generalize n % 16 = k at h
  interval_cases k <;> rfl

theorem htmlSafe_plain (c : Char) (h : htmlSafe c = true) :
    c ≠ '"' ∧ c ≠ '\\' ∧ ¬ c.toNat < 0x20 := by
  simp only [htmlSafe, Bool.and_eq_true, decide_eq_true_eq, Bool.not_eq_true',
    Bool.or_eq_false_iff, beq_eq_false_iff_ne, ne_eq] at h
  refine ⟨h.2.1.1.1.1, h.2.1.1.1.2, ?_⟩
  omega

theorem nonASCII_plain (c : Char) (h : ¬ c.toNat < 0x80) :
    c ≠ '"' ∧ c ≠ '\\' ∧ ¬ c.toNat < 0x20 := by
  refine ⟨?_, ?_, by omega⟩
  · rintro rfl; exact h (by decide)
  · rintro rfl; exact h (by decide)

theorem isHex_zero : isHex '0' = true := by decide
theorem isHex_two : isHex '2' = true := by decide

/-- An encoded character scans as part of the string and stays in `inString`. -/
theorem scanStringFrom_encodeChar (c : Char) (s : List Char) :
    scanStringFrom .inString (encodeChar c ++ s)
      = (scanStringFrom .inString s).map (fun p => (encodeChar c ++ p.1, p.2)) := by
  unfold encodeChar
  split
  · next hlt =>
    split
    · next hs =>
      obtain ⟨hq, hb, h20⟩ := htmlSafe_plain c hs
      simp [scanStringFrom, consRaw, hq, hb, h20]
    · split
      · next h =>
        rcases h with h | h <;> subst h <;>
          simp [scanStringFrom, isSimpleEscape, consRaw] <;>
          cases scanStringFrom StringState.inString s <;> rfl
      · repeat' split
        all_goals
          simp [scanStringFrom, isSimpleEscape, isHex_hexChar, isHex_zero, consRaw]
          cases scanStringFrom StringState.inString s <;> rfl
  · next hge =>
    obtain ⟨hq, hb, h20⟩ := nonASCII_plain c hge
    split
    · simp [scanStringFrom, isSimpleEscape, isHex_hexChar, isHex_zero, isHex_two, consRaw]
      cases scanStringFrom StringState.inString s <;> rfl
    · simp [scanStringFrom, consRaw, hq, hb, h20]

theorem scanString_encodeChars (tok rest : List Char) :
    scanString (encodeChars tok ++ '"' :: rest) = some (encodeChars tok, rest) := by
  unfold scanString
  induction tok with
  | nil => simp [encodeChars, scanStringFrom]
  | cons c cs ih =>
    rw [encodeChars, List.append_assoc, scanStringFrom_encodeChar, ih]
    rfl

theorem getu4_low (n : Nat) (h : n < 256) :
    getu4 '0' '0' (hexChar (n / 16)) (hexChar n) = n := by
  have e0 : hexVal '0' = 0 := by decide
  simp only [getu4, hexVal_hexChar, e0]
  omega

theorem getu4_line (n : Nat) (h : n = 0x2028 ∨ n = 0x2029) :
    getu4 '2' '0' '2' (hexChar n) = n := by
  have e0 : hexVal '0' = 0 := by decide
  have e2 : hexVal '2' = 2 := by decide
  simp only [getu4, hexVal_hexChar, e0, e2]
  omega

theorem unquoteFrom_encodeChar (c : Char) (s : List Char) :
    unquoteFrom 0 (encodeChar c ++ s) = c :: unquoteFrom 0 s := by
  unfold encodeChar
  split
  · next hlt =>
    split
    · next hs =>
      obtain ⟨hq, hb, h20⟩ := htmlSafe_plain c hs
      simp [unquoteFrom, hb]
    · split
      · next h =>
        rcases h with h | h <;> subst h <;>
          simp [unquoteFrom, decodeEscape, unescape]
      · repeat' split
        all_goals
          first
          | (next h => subst h; simp [unquoteFrom, decodeEscape, unescape])
          | (have hg := getu4_low c.toNat (by omega)
             have hns : ¬ (55296 ≤ c.toNat ∧ c.toNat < 57344) := by omega
             simp [unquoteFrom, decodeEscape, hg, hns])
  · next hge =>
    obtain ⟨hq, hb, h20⟩ := nonASCII_plain c hge
    split
    · next h =>
      have hg := getu4_line c.toNat h
      have hns : ¬ (55296 ≤ c.toNat ∧ c.toNat < 57344) := by omega
      simp [unquoteFrom, decodeEscape, hg, hns]
    · simp [unquoteFrom, hb]

theorem unquote_encodeChars (tok : List Char) : unquote (encodeChars tok) = tok := by
  unfold unquote
  induction tok with
  | nil => simp [encodeChars, unquoteFrom]
  | cons c cs ih => rw [encodeChars, unquoteFrom_encodeChar, ih]


theorem scanString_plain (xs rest : List Char) (h : ∀ c ∈ xs, isPlain c = true) :
    scanString (xs ++ '"' :: rest) = some (xs, rest) := by
  unfold scanString
  induction xs with
  | nil => simp [scanStringFrom]
  | cons c cs ih =>
    have hc := h c (List.mem_cons_self _ _)
    simp only [isPlain, Bool.and_eq_true, bne_iff_ne, ne_eq, Bool.not_eq_true',
      decide_eq_false_iff_not] at hc
    have ih' := ih (fun d hd => h d (List.mem_cons_of_mem _ hd))
    simp [scanStringFrom, hc.1.1, hc.1.2, hc.2, ih', consRaw]

theorem isPlain_digitChar (n : Nat) : isPlain (digitChar n) = true := by
  have h : n % 10 < 10 := Nat.mod_lt _ (by decide)
  unfold digitChar
  generalize n % 10 = k at h
  interval_cases k <;> rfl

theorem isPlain_appendInt2 (n : Nat) : ∀ c ∈ appendInt2 n, isPlain c = true := by
  intro c hc
  simp only [appendInt2, List.mem_cons, List.mem_singleton, List.not_mem_nil, or_false] at hc
  rcases hc with h | h <;> subst h <;> exact isPlain_digitChar _

theorem isPlain_appendInt4 (n : Nat) : ∀ c ∈ appendInt4 n, isPlain c = true := by
  intro c hc
  simp only [appendInt4, List.mem_cons, List.mem_singleton, List.not_mem_nil, or_false] at hc
  rcases hc with h | h | h | h <;> subst h <;> exact isPlain_digitChar _

theorem isPlain_appendNano (n : Nat) : ∀ c ∈ appendNano n, isPlain c = true := by
  intro c hc
  unfold appendNano at hc
  split at hc
  · simp at hc
  · rcases List.mem_cons.mp hc with h | h
    · subst h; rfl
    · have hm := (List.rdropWhile_prefix _ _).subset h
      simp only [appendInt9, List.mem_cons, List.mem_singleton, List.not_mem_nil, or_false] at hm
      rcases hm with h | h | h | h | h | h | h | h | h <;> subst h <;> exact isPlain_digitChar _

theorem isPlain_appendZone (off : Int) : ∀ c ∈ appendZone off, isPlain c = true := by
  intro c hc
  unfold appendZone at hc
  split at hc
  · simp at hc; subst hc; rfl
  · split at hc <;>
    · simp only [List.mem_cons, List.mem_append] at hc
      rcases hc with h | h | h | h
      · subst h; rfl
      · exact isPlain_appendInt2 _ c h
      · subst h; rfl
      · exact isPlain_appendInt2 _ c h

theorem isPlain_appendFormatRFC3339 (t : Time) :
    ∀ c ∈ appendFormatRFC3339 t, isPlain c = true := by
  intro c hc
  simp only [appendFormatRFC3339, List.mem_append, List.mem_cons] at hc
  rcases hc with ((((((h | h | h) | h | h) | h | h) | h | h) | h | h) | h) | h
  all_goals first
    | exact isPlain_appendInt4 _ c h
    | exact isPlain_appendInt2 _ c h
    | exact isPlain_appendNano _ c h
    | exact isPlain_appendZone _ c h
    | (subst h; rfl)


/-! ## Lemmas: UTF-8 -/

theorem char_valid (c : Char) :
    c.toNat < 0xd800 ∨ (0xdfff < c.toNat ∧ c.toNat < 0x110000) := c.valid

theorem decodeRune_two (b0 b1 : Nat) (rest : List Nat) (hs : runeSize b0 = 2)
    (hb : ¬ (b1 < acceptLo b0 ∨ acceptHi b0 < b1)) :
    decodeRune (b0 :: b1 :: rest) = (some (Char.ofNat (b0 % 32 * 64 + b1 % 64)), 2) := by
  unfold decodeRune
  simp only [hs, hb, List.length_cons]
  simp

theorem decodeRune_three (b0 b1 b2 : Nat) (rest : List Nat) (hs : runeSize b0 = 3)
    (hb : ¬ (b1 < acceptLo b0 ∨ acceptHi b0 < b1)) (h2 : isCont b2 = true) :
    decodeRune (b0 :: b1 :: b2 :: rest)
      = (some (Char.ofNat (b0 % 16 * 4096 + b1 % 64 * 64 + b2 % 64)), 3) := by
  unfold decodeRune
  simp only [hs, hb, h2, List.length_cons]
  simp

theorem decodeRune_four (b0 b1 b2 b3 : Nat) (rest : List Nat) (hs : runeSize b0 = 4)
    (hb : ¬ (b1 < acceptLo b0 ∨ acceptHi b0 < b1)) (h2 : isCont b2 = true)
    (h3 : isCont b3 = true) :
    decodeRune (b0 :: b1 :: b2 :: b3 :: rest)
      = (some (Char.ofNat (b0 % 8 * 262144 + b1 % 64 * 4096 + b2 % 64 * 64 + b3 % 64)), 4) := by
  unfold decodeRune
  simp only [hs, hb, h2, h3, List.length_cons]
  simp

/-- Decoding the UTF-8 bytes of a character beyond ASCII gives the character
back, with its width. -/
theorem decodeRune_encodeRune (c : Char) (rest : List Nat) (h : ¬ c.toNat < 0x80) :
    ∃ b0 bs, encodeRune c = b0 :: bs ∧ ¬ b0 < 0x80 ∧
      decodeRune (b0 :: (bs ++ rest)) = (some c, bs.length + 1) := by
  have hv := char_valid c
  have hc := Char.ofNat_toNat c
  unfold encodeRune
  generalize c.toNat = n at *
  by_cases h1 : n < 0x800
  · refine ⟨0xc0 + n / 64, [0x80 + n % 64], by simp [h, h1], by omega, ?_⟩
    have hs : runeSize (0xc0 + n / 64) = 2 := by unfold runeSize; split_ifs <;> omega
    have hb : ¬ (0x80 + n % 64 < acceptLo (0xc0 + n / 64) ∨
        acceptHi (0xc0 + n / 64) < 0x80 + n % 64) := by
      unfold acceptLo acceptHi; split_ifs <;> omega
    have hval : (0xc0 + n / 64) % 32 * 64 + (0x80 + n % 64) % 64 = n := by omega
    rw [List.singleton_append, decodeRune_two _ _ _ hs hb, hval, hc]
    rfl
  · by_cases h2 : n < 0x10000
    · refine ⟨0xe0 + n / 4096, [0x80 + n / 64 % 64, 0x80 + n % 64], by simp [h, h1, h2],
        by omega, ?_⟩
      have hs : runeSize (0xe0 + n / 4096) = 3 := by unfold runeSize; split_ifs <;> omega
      have hb : ¬ (0x80 + n / 64 % 64 < acceptLo (0xe0 + n / 4096) ∨
          acceptHi (0xe0 + n / 4096) < 0x80 + n / 64 % 64) := by
        unfold acceptLo acceptHi; split_ifs <;> omega
      have hval : (0xe0 + n / 4096) % 16 * 4096 + (0x80 + n / 64 % 64) % 64 * 64 +
          (0x80 + n % 64) % 64 = n := by omega
      have hc2 : isCont (0x80 + n % 64) = true := by
        simp only [isCont, Bool.and_eq_true, decide_eq_true_eq]; omega
      rw [List.cons_append, List.singleton_append, decodeRune_three _ _ _ _ hs hb hc2, hval, hc]
      rfl
    · refine ⟨0xf0 + n / 262144, [0x80 + n / 4096 % 64, 0x80 + n / 64 % 64, 0x80 + n % 64],
        by simp [h, h1, h2], by omega, ?_⟩
      have hs : runeSize (0xf0 + n / 262144) = 4 := by unfold runeSize; split_ifs <;> omega
      have hb : ¬ (0x80 + n / 4096 % 64 < acceptLo (0xf0 + n / 262144) ∨
          acceptHi (0xf0 + n / 262144) < 0x80 + n / 4096 % 64) := by
        unfold acceptLo acceptHi; split_ifs <;> omega
      have hval : (0xf0 + n / 262144) % 8 * 262144 + (0x80 + n / 4096 % 64) % 64 * 4096 +
          (0x80 + n / 64 % 64) % 64 * 64 + (0x80 + n % 64) % 64 = n := by omega
      have hc2 : isCont (0x80 + n / 64 % 64) = true := by
        simp only [isCont, Bool.and_eq_true, decide_eq_true_eq]; omega
      have hc3 : isCont (0x80 + n % 64) = true := by
        simp only [isCont, Bool.and_eq_true, decide_eq_true_eq]; omega
      rw [List.cons_append, List.cons_append, List.singleton_append,
        decodeRune_four _ _ _ _ _ hs hb hc2 hc3, hval, hc]
      rfl

theorem appendString_skip (bs rest : List Nat) :
    appendString bs.length (bs ++ rest) = appendString 0 rest := by
  induction bs with
  | nil => rfl
  | cons b bs ih => simpa [appendString] using ih

/-- The JSON text of the UTF-8 bytes of a character is the text of the
character. -/
theorem appendString_encodeRune (c : Char) (rest : List Nat) :
    appendString 0 (encodeRune c ++ rest) = encodeChar c ++ appendString 0 rest := by
  by_cases h : c.toNat < 0x80
  · have he : encodeRune c = [c.toNat] := by simp [encodeRune, h]
    rw [he]
    simp [appendString, h, Char.ofNat_toNat]
  · obtain ⟨b0, bs, he, hb0, hd⟩ := decodeRune_encodeRune c rest h
    rw [he, List.cons_append, appendString]
    simp only [hb0, ↓reduceIte, hd, Nat.add_sub_cancel]
    rw [appendString_skip]

/-- The JSON text of a well-formed Go string is the text of its characters. -/
theorem appendString_utf8 (text : List Char) :
    appendString 0 (utf8 text) = encodeChars text := by
  induction text with
  | nil => rfl
  | cons c cs ih => rw [utf8, appendString_encodeRune, ih, encodeChars]

theorem isHex_f : isHex 'f' = true := by decide
theorem isHex_d : isHex 'd' = true := by decide

/-- The JSON text of any Go string scans as the inside of a string literal. -/
theorem scanStringFrom_appendString (bs : List Nat) :
    ∀ (skip : Nat) (s : List Char),
      scanStringFrom .inString (appendString skip bs ++ s)
        = (scanStringFrom .inString s).map (fun p => (appendString skip bs ++ p.1, p.2)) := by
  induction bs with
  | nil =>
    intro skip s
    have e : appendString skip [] = [] := by cases skip <;> rfl
    rw [e, List.nil_append]
    generalize scanStringFrom StringState.inString s = r
    cases r <;> simp
  | cons b rest ih =>
    intro skip s
    cases skip with
    | succ k => simpa [appendString] using ih k s
    | zero =>
      rw [appendString]
      split
      · rw [List.append_assoc, scanStringFrom_encodeChar, ih 0 s]
        generalize scanStringFrom StringState.inString s = r
        cases r <;> simp
      · split
        · rw [List.append_assoc]
          have e6 : ∀ x : List Char,
              scanStringFrom .inString ('\\' :: 'u' :: 'f' :: 'f' :: 'f' :: 'd' :: x)
                = (scanStringFrom .inString x).map
                    (fun p => ('\\' :: 'u' :: 'f' :: 'f' :: 'f' :: 'd' :: p.1, p.2)) := by
            intro x
            simp only [scanStringFrom, isHex_f, isHex_d, ↓reduceIte, Char.reduceEq]
            generalize scanStringFrom StringState.inString x = r
            cases r <;> simp [consRaw]
          simp only [List.cons_append, List.nil_append]
          rw [e6, ih 0 s]
          generalize scanStringFrom StringState.inString s = r
          cases r <;> simp
        · next c size _ =>
          rw [List.append_assoc, scanStringFrom_encodeChar, ih (size - 1) s]
          generalize scanStringFrom StringState.inString s = r
          cases r <;> simp

theorem scanString_appendString (token : List Nat) (rest : List Char) :
    scanString (appendString 0 token ++ '"' :: rest) = some (appendString 0 token, rest) := by
  unfold scanString
  rw [scanStringFrom_appendString]
  simp [scanStringFrom]

theorem parseValue_record (n : Nat) (enc ts : List Char)
    (h1 : ∀ r, scanString (enc ++ '"' :: r) = some (enc, r))
    (h2 : ∀ r, scanString (ts ++ '"' :: r) = some (ts, r)) :
    parseValue (n + 4) 0
      (['{', '"', 't', 'o', 'k', 'e', 'n', '"', ':', '"'] ++ enc ++
        ['"', ',', '"', 'e', 'x', 'p', 'i', 'r', 'e', 's', 'A', 't', '"', ':'] ++
        ('"' :: (ts ++ ['"'])) ++ ['}'])
      = some (.object [(['t', 'o', 'k', 'e', 'n'], .string enc),
          (['e', 'x', 'p', 'i', 'r', 'e', 's', 'A', 't'], .string ts)], []) := by
  have k1 : scanString ('t' :: 'o' :: 'k' :: 'e' :: 'n' :: '"' :: ':' :: '"' :: (enc ++
        '"' :: ',' :: '"' :: 'e' :: 'x' :: 'p' :: 'i' :: 'r' :: 'e' :: 's' :: 'A' :: 't' :: '"' ::
        ':' :: '"' :: (ts ++ ['"', '}'])))
      = some (['t', 'o', 'k', 'e', 'n'], ':' :: '"' :: (enc ++
        '"' :: ',' :: '"' :: 'e' :: 'x' :: 'p' :: 'i' :: 'r' :: 'e' :: 's' :: 'A' :: 't' :: '"' ::
        ':' :: '"' :: (ts ++ ['"', '}']))) := by
    simp [scanString, scanStringFrom, consRaw]
  have k2 : scanString ('e' :: 'x' :: 'p' :: 'i' :: 'r' :: 'e' :: 's' :: 'A' :: 't' :: '"' ::
        ':' :: '"' :: (ts ++ ['"', '}']))
      = some (['e', 'x', 'p', 'i', 'r', 'e', 's', 'A', 't'], ':' :: '"' :: (ts ++ ['"', '}'])) := by
    simp [scanString, scanStringFrom, consRaw]
  simp [parseValue, parseMembers, skipSpace, isSpace, maxNestingDepth, k1, k2, h1, h2]

theorem lookupField_token : lookupField (unquote ['t', 'o', 'k', 'e', 'n']) = some .Token := by
  decide

theorem lookupField_expiresAt :
    lookupField (unquote ['e', 'x', 'p', 'i', 'r', 'e', 's', 'A', 't']) = some .ExpiresAt := by
  decide

theorem Marshal_eq (token : List Nat) (t : Time)
    (hy0 : 0 ≤ t.year) (hy1 : t.year ≤ 9999) (hoff : (zoneMinutes t.offset).natAbs / 60 < 24) :
    Marshal ⟨token, t⟩ = .ok (['{', '"', 't', 'o', 'k', 'e', 'n', '"', ':', '"'] ++
        appendString 0 token ++
        ['"', ',', '"', 'e', 'x', 'p', 'i', 'r', 'e', 's', 'A', 't', '"', ':'] ++
        ('"' :: (appendFormatRFC3339 t ++ ['"'])) ++ ['}']) := by
  simp [Marshal, Time.MarshalJSON, hy0, hy1, hoff]

theorem Marshal_ok_iff (token : List Nat) (t : Time) :
    (∃ b, Marshal ⟨token, t⟩ = .ok b) ↔
      (0 ≤ t.year ∧ t.year ≤ 9999 ∧ (zoneMinutes t.offset).natAbs / 60 < 24) := by
  unfold Marshal Time.MarshalJSON
  constructor
  · rintro ⟨b, hb⟩
    by_contra hc
    simp [hc] at hb
  · intro h
    simp [h]

/-- What `json.Marshal` writes for a record, `json.Unmarshal` reads back,
whatever the value decoded into held before: the token as its JSON text
decodes, and the time as written. -/
theorem Unmarshal_Marshal (token : List Nat) (t : Time) (b : List Char) (c0 : cache)
    (hv : t.Valid) (hm : Marshal ⟨token, t⟩ = .ok b) :
    Unmarshal b c0 = .ok ⟨utf8 (unquote (appendString 0 token)), t.written⟩ := by
  obtain ⟨hy0, hy1, hoff⟩ := (Marshal_ok_iff token t).mp ⟨b, hm⟩
  rw [Marshal_eq token t hy0 hy1 hoff] at hm
  injection hm with hm
  subst hm
  have hlen : ∃ n, 2 * (['{', '"', 't', 'o', 'k', 'e', 'n', '"', ':', '"'] ++
        appendString 0 token ++
        ['"', ',', '"', 'e', 'x', 'p', 'i', 'r', 'e', 's', 'A', 't', '"', ':'] ++
        ('"' :: (appendFormatRFC3339 t ++ ['"'])) ++ ['}']).length + 1 = n + 4 := by
    refine ⟨2 * ((appendString 0 token).length + (appendFormatRFC3339 t).length) + 51, ?_⟩
    simp only [List.length_append, List.length_cons, List.length_nil]
    omega
  obtain ⟨n, hn⟩ := hlen
  have hp := parseValue_record n (appendString 0 token) (appendFormatRFC3339 t)
    (scanString_appendString token)
    (fun r => scanString_plain _ r (isPlain_appendFormatRFC3339 t))
  have hs : skipSpace (['{', '"', 't', 'o', 'k', 'e', 'n', '"', ':', '"'] ++
        appendString 0 token ++
        ['"', ',', '"', 'e', 'x', 'p', 'i', 'r', 'e', 's', 'A', 't', '"', ':'] ++
        ('"' :: (appendFormatRFC3339 t ++ ['"'])) ++ ['}'])
      = (['{', '"', 't', 'o', 'k', 'e', 'n', '"', ':', '"'] ++
        appendString 0 token ++
        ['"', ',', '"', 'e', 'x', 'p', 'i', 'r', 'e', 's', 'A', 't', '"', ':'] ++
        ('"' :: (appendFormatRFC3339 t ++ ['"'])) ++ ['}']) := by
    simp [skipSpace, isSpace]
  unfold Unmarshal parseJSON
  rw [hs, hn, hp]
  simp [skipSpace, decodeMembers, lookupField_token, lookupField_expiresAt,
    Time.UnmarshalJSON, parseStrictRFC3339,
    parseRFC3339_appendFormatRFC3339 t hv hy0 hy1 hoff]


/-! ## Lemmas: the parser never runs out of fuel -/

theorem skipSpace_length_le (s : List Char) : (skipSpace s).length ≤ s.length :=
  (List.dropWhile_sublist _).length_le

theorem skipSpace_cons_length (s r : List Char) (c : Char) (h : skipSpace s = c :: r) :
    r.length + 1 ≤ s.length := by
  have := skipSpace_length_le s
  rw [h] at this
  simpa using this

theorem consRaw_some (c : Char) (x : Option (List Char × List Char)) (raw r : List Char)
    (h : consRaw c x = some (raw, r)) : ∃ raw1, x = some (raw1, r) := by
  cases x with
  | none => simp [consRaw] at h
  | some p =>
    obtain ⟨a, b⟩ := p
    simp only [consRaw, Option.map_some', Option.some.injEq, Prod.mk.injEq] at h
    exact ⟨a, by rw [h.2]⟩

theorem scanStringFrom_length (s : List Char) :
    ∀ (st : StringState) (raw r : List Char),
      scanStringFrom st s = some (raw, r) → r.length < s.length := by
  induction s with
  | nil => intro st raw r h; cases st <;> simp [scanStringFrom] at h
  | cons c rest ih =>
    intro st raw r h
    cases st <;> simp only [scanStringFrom] at h <;> (repeat' split at h) <;>
      first
      | (simp at h; done)
      | (simp only [Option.some.injEq, Prod.mk.injEq] at h
         obtain ⟨_, h2⟩ := h
         subst h2
         simp)
      | (obtain ⟨raw1, h1⟩ := consRaw_some _ _ _ _ h
         have := ih _ _ _ h1
         simp only [List.length_cons]
         omega)

theorem scanDigits_length (s r : List Char) (h : scanDigits s = some r) :
    r.length < s.length := by
  unfold scanDigits at h
  split at h
  · next c rest =>
    split at h
    · injection h with h
      subst h
      have hd : (rest.dropWhile isDigit).length ≤ rest.length :=
        (List.dropWhile_sublist isDigit).length_le
      simp only [List.length_cons]
      omega
    · simp at h
  · simp at h

theorem scanInt_length (s r : List Char) (h : scanInt s = some r) : r.length < s.length := by
  unfold scanInt at h
  split at h
  · split at h
    · injection h with h; subst h; simp
    · exact scanDigits_length _ _ h
  · simp at h

theorem scanFrac_length (s r : List Char) (h : scanFrac s = some r) : r.length ≤ s.length := by
  unfold scanFrac at h
  split at h
  · split at h
    · have := scanDigits_length _ _ h
      simp only [List.length_cons]; omega
    · injection h with h; subst h; exact Nat.le_refl _
  · injection h with h; subst h; exact Nat.le_refl _

theorem scanExp_length (s r : List Char) (h : scanExp s = some r) : r.length ≤ s.length := by
  unfold scanExp at h
  split at h
  · split at h
    · split at h
      · split at h
        · have := scanDigits_length _ _ h
          simp only [List.length_cons]; omega
        · have := scanDigits_length _ _ h
          simp only [List.length_cons] at this ⊢; omega
      · simp at h
    · injection h with h; subst h; exact Nat.le_refl _
  · injection h with h; subst h; exact Nat.le_refl _

theorem scanNumber_length (s r : List Char) (h : scanNumber s = some r) :
    r.length < s.length := by
  have l1 : (match s with | c :: r => if c = '-' then r else s | [] => s).length ≤ s.length := by
    split
    · split
      · simp
      · exact Nat.le_refl _
    · exact Nat.le_refl _
  unfold scanNumber at h
  simp only at h
  split at h
  · simp at h
  · next s2 h2 =>
    split at h
    · simp at h
    · next s3 h3 =>
      have l2 := scanInt_length _ _ h2
      have l3 := scanFrac_length _ _ h3
      have l4 := scanExp_length _ _ h
      omega

theorem parseValue_succ (n d : Nat) (s : List Char) :
    parseValue (n + 1) d s =
    match s with
    | [] => none
    | c :: rest =>
      if c = '{' then
        if maxNestingDepth ≤ d then none
        else
          match skipSpace rest with
          | '}' :: r => some (.object [], r)
          | r => parseMembers n (d + 1) r
      else if c = '[' then
        if maxNestingDepth ≤ d then none
        else
          match skipSpace rest with
          | ']' :: r => some (.array [], r)
          | r => parseElems n (d + 1) r
      else if c = '"' then
        (scanString rest).map (fun p => (.string p.1, p.2))
      else if c = 't' then
        match rest with
        | 'r' :: 'u' :: 'e' :: r => some (.bool true, r)
        | _ => none
      else if c = 'f' then
        match rest with
        | 'a' :: 'l' :: 's' :: 'e' :: r => some (.bool false, r)
        | _ => none
      else if c = 'n' then
        match rest with
        | 'u' :: 'l' :: 'l' :: r => some (.null, r)
        | _ => none
      else (scanNumber s).map (fun r => (.number, r)) := by
  rfl

theorem parseMembers_succ (n d : Nat) (s : List Char) :
    parseMembers (n + 1) d s =
    match s with
    | '"' :: r =>
      match scanString r with
      | none => none
      | some (key, r1) =>
        match skipSpace r1 with
        | ':' :: r2 =>
          match parseValue n d (skipSpace r2) with
          | none => none
          | some (v, r3) =>
            match skipSpace r3 with
            | '}' :: r4 => some (.object [(key, v)], r4)
            | ',' :: r4 =>
              match parseMembers n d (skipSpace r4) with
              | some (.object ms, r5) => some (.object ((key, v) :: ms), r5)
              | _ => none
            | _ => none
        | _ => none
    | _ => none := by
  rfl

theorem parseElems_succ (n d : Nat) (s : List Char) :
    parseElems (n + 1) d s =
    match parseValue n d s with
    | none => none
    | some (v, r1) =>
      match skipSpace r1 with
      | ']' :: r2 => some (.array [v], r2)
      | ',' :: r2 =>
        match parseElems n d (skipSpace r2) with
        | some (.array vs, r3) => some (.array (v :: vs), r3)
        | _ => none
      | _ => none := by
  rfl

theorem parseValue_zero (d : Nat) (s : List Char) : parseValue 0 d s = none := rfl
theorem parseMembers_zero (d : Nat) (s : List Char) : parseMembers 0 d s = none := rfl
theorem parseElems_zero (d : Nat) (s : List Char) : parseElems 0 d s = none := rfl

/-- Every successful parse consumes at least one character. -/
theorem parse_length (n : Nat) :
    (∀ d s v r, parseValue n d s = some (v, r) → r.length < s.length) ∧
    (∀ d s v r, parseMembers n d s = some (v, r) → r.length < s.length) ∧
    (∀ d s v r, parseElems n d s = some (v, r) → r.length < s.length) := by
  induction n with
  | zero =>
    refine ⟨?_, ?_, ?_⟩ <;> intro d s v r h
    · rw [parseValue_zero] at h; cases h
    · rw [parseMembers_zero] at h; cases h
    · rw [parseElems_zero] at h; cases h
  | succ n ih =>
    obtain ⟨ihV, ihM, ihE⟩ := ih
    refine ⟨?_, ?_, ?_⟩
    · intro d s v r h
      rw [parseValue_succ] at h
      split at h
      · cases h
      · next c rest =>
        simp only [List.length_cons]
        split at h
        · split at h
          · cases h
          · split at h
            · next r1 hs =>
              injection h with h; injection h with _ h; subst h
              have := skipSpace_cons_length _ _ _ hs
              omega
            · have := ihM _ _ _ _ h
              have := skipSpace_length_le rest
              omega
        · split at h
          · split at h
            · cases h
            · split at h
              · next r1 hs =>
                injection h with h; injection h with _ h; subst h
                have := skipSpace_cons_length _ _ _ hs
                omega
              · have := ihE _ _ _ _ h
                have := skipSpace_length_le rest
                omega
          · split at h
            · cases hs : scanString rest with
              | none => simp [hs] at h
              | some p =>
                obtain ⟨raw, r1⟩ := p
                simp only [hs, Option.map_some', Option.some.injEq, Prod.mk.injEq] at h
                have := scanStringFrom_length _ _ _ _ hs
                rw [← h.2]
                omega
            · split at h
              · split at h
                · injection h with h; injection h with _ h; subst h
                  simp only [List.length_cons]; omega
                · cases h
              · split at h
                · split at h
                  · injection h with h; injection h with _ h; subst h
                    simp only [List.length_cons]; omega
                  · cases h
                · split at h
                  · split at h
                    · injection h with h; injection h with _ h; subst h
                      simp only [List.length_cons]; omega
                    · cases h
                  · cases hs : scanNumber (c :: rest) with
                    | none => simp [hs] at h
                    | some r1 =>
                      simp only [hs, Option.map_some', Option.some.injEq, Prod.mk.injEq] at h
                      have := scanNumber_length _ _ hs
                      rw [← h.2]
                      simpa using this
    · intro d s v r h
      rw [parseMembers_succ] at h
      split at h
      · next r0 =>
        split at h
        · cases h
        · next key r1 hk =>
          have l1 := scanStringFrom_length _ _ _ _ hk
          split at h
          · next r2 h2 =>
            have l2 := skipSpace_cons_length _ _ _ h2
            split at h
            · cases h
            · next v1 r3 h3 =>
              have l3 := ihV _ _ _ _ h3
              have l3' := skipSpace_length_le r2
              split at h
              · next r4 h4 =>
                injection h with h; injection h with _ h; subst h
                have := skipSpace_cons_length _ _ _ h4
                simp only [List.length_cons]; omega
              · next r4 h4 =>
                have l4 := skipSpace_cons_length _ _ _ h4
                have l4' := skipSpace_length_le r4
                split at h
                · next ms r5 h5 =>
                  injection h with h; injection h with _ h; subst h
                  have := ihM _ _ _ _ h5
                  simp only [List.length_cons]; omega
                · cases h
              · cases h
          · cases h
      · cases h
    · intro d s v r h
      rw [parseElems_succ] at h
      split at h
      · cases h
      · next v1 r1 h1 =>
        have l1 := ihV _ _ _ _ h1
        split at h
        · next r2 h2 =>
          injection h with h; injection h with _ h; subst h
          have := skipSpace_cons_length _ _ _ h2
          omega
        · next r2 h2 =>
          have l2 := skipSpace_cons_length _ _ _ h2
          have l2' := skipSpace_length_le r2
          split at h
          · next vs r3 h3 =>
            injection h with h; injection h with _ h; subst h
            have := ihE _ _ _ _ h3
            omega
          · cases h
        · cases h

/-- Fuel beyond twice the length of the input does not change the result of
the parser: it never fails for lack of fuel. -/
theorem parse_fuel (n : Nat) :
    (∀ d s, 2 * s.length < n → ∀ m, n ≤ m → parseValue m d s = parseValue n d s) ∧
    (∀ d s, 2 * s.length + 1 < n → ∀ m, n ≤ m → parseMembers m d s = parseMembers n d s) ∧
    (∀ d s, 2 * s.length + 1 < n → ∀ m, n ≤ m → parseElems m d s = parseElems n d s) := by
  induction n with
  | zero =>
    refine ⟨?_, ?_, ?_⟩ <;> intro d s hs <;> omega
  | succ n ih =>
    obtain ⟨ihV, ihM, ihE⟩ := ih
    refine ⟨?_, ?_, ?_⟩
    · intro d s hs m hm
      obtain ⟨m, rfl⟩ : ∃ k, m = k + 1 := ⟨m - 1, by omega⟩
      have hm' : n ≤ m := by omega
      rw [parseValue_succ, parseValue_succ]
      cases s with
      | nil => rfl
      | cons c rest =>
        simp only [List.length_cons] at hs
        have l := skipSpace_length_le rest
        simp only []
        repeat' split
        all_goals first
          | rfl
          | exact ihM _ _ (by omega) m hm'
          | exact ihE _ _ (by omega) m hm'
    · intro d s hs m hm
      obtain ⟨m, rfl⟩ : ∃ k, m = k + 1 := ⟨m - 1, by omega⟩
      have hm' : n ≤ m := by omega
      rw [parseMembers_succ, parseMembers_succ]
      split
      · next r0 =>
        simp only [List.length_cons] at hs
        split
        · rfl
        · next key r1 hk =>
          have l1 := scanStringFrom_length _ _ _ _ hk
          split
          · next r2 h2 =>
            have l2 := skipSpace_cons_length _ _ _ h2
            have l2' := skipSpace_length_le r2
            rw [ihV d (skipSpace r2) (by omega) m hm']
            split
            · rfl
            · next v1 r3 h3 =>
              have l3 := (parse_length n).1 _ _ _ _ h3
              split
              · rfl
              · next r4 h4 =>
                have l4 := skipSpace_cons_length _ _ _ h4
                have l4' := skipSpace_length_le r4
                rw [ihM d (skipSpace r4) (by omega) m hm']
              · rfl
          · rfl
      · rfl
    · intro d s hs m hm
      obtain ⟨m, rfl⟩ : ∃ k, m = k + 1 := ⟨m - 1, by omega⟩
      have hm' : n ≤ m := by omega
      rw [parseElems_succ, parseElems_succ, ihV d s (by omega) m hm']
      split
      · rfl
      · next v1 r1 h1 =>
        have l1 := (parse_length n).1 _ _ _ _ h1
        split
        · rfl
        · next r2 h2 =>
          have l2 := skipSpace_cons_length _ _ _ h2
          have l2' := skipSpace_length_le r2
          rw [ihE d (skipSpace r2) (by omega) m hm']
        · rfl

/-- The parser, run with any fuel above twice the length of the input, gives
the result of `parseJSON`. -/
theorem parseJSON_fuel (data : List Char) (m : Nat) (hm : 2 * data.length + 1 ≤ m) :
    (match parseValue m 0 (skipSpace data) with
      | some (v, rest) => if (skipSpace rest).isEmpty then some v else none
      | none => none) = parseJSON data := by
  unfold parseJSON
  have l := skipSpace_length_le data
  rw [(parse_fuel (2 * data.length + 1)).1 0 (skipSpace data) (by omega) m hm]

/-! ## Lemmas: decoding -/

theorem orElse_some_ne_none (saved : Option JSONError) (e : JSONError) :
    (saved.orElse (fun _ => some e)) ≠ none := by
  cases saved <;> simp [Option.orElse]

/-- Decoding the members succeeds without a recorded error exactly when no
error was recorded before and no member is rejected. -/
theorem decodeMembers_ok_iff (ms : List (List Char × JValue)) :
    ∀ (c : cache) (saved : Option JSONError),
      (∃ c1, decodeMembers ms c saved = .ok (c1, none)) ↔
        (saved = none ∧ ms.any badMember = false) := by
  induction ms with
  | nil =>
    intro c saved
    simp [decodeMembers]
  | cons m ms ih =>
    intro c saved
    obtain ⟨key, v⟩ := m
    simp only [decodeMembers, List.any_cons, badMember, Bool.or_eq_false_iff]
    cases hl : lookupField (unquote key) with
    | none => simp [ih]
    | some fld =>
      cases fld with
      | Token =>
        cases v <;> simp [ih, orElse_some_ne_none]
      | ExpiresAt =>
        cases v with
        | null => simp [Time.UnmarshalJSON, ih]
        | string raw =>
          cases hp : parseStrictRFC3339 raw <;> simp [Time.UnmarshalJSON, hp, ih]
        | bool b => simp [Time.UnmarshalJSON]
        | number => simp [Time.UnmarshalJSON]
        | array xs => simp [Time.UnmarshalJSON]
        | object xs => simp [Time.UnmarshalJSON]

/-- Go `json.Unmarshal` succeeds exactly on content that is not `corrupt`. -/
theorem Unmarshal_ok_iff (data : List Char) (c : cache) :
    (∃ c1, Unmarshal data c = .ok c1) ↔ corrupt data = false := by
  unfold Unmarshal corrupt
  cases hp : parseJSON data with
  | none => simp
  | some v =>
    cases v with
    | object ms =>
      have h := decodeMembers_ok_iff ms c none
      simp only [true_and] at h
      rw [← h]
      constructor
      · rintro ⟨c1, hc⟩
        cases hd : decodeMembers ms c none with
        | error e => simp [hd] at hc
        | ok r =>
          obtain ⟨c2, sv⟩ := r
          cases sv with
          | none => exact ⟨c2, rfl⟩
          | some e => simp [hd] at hc
      · rintro ⟨c1, hc⟩
        exact ⟨c1, by simp [hc]⟩
    | null => simp
    | bool b => simp
    | number => simp
    | string raw => simp
    | array xs => simp

/-! ## Lemmas: `Set` and `Get` -/

theorem Marshal_ne_nil (c : cache) (b : List Char) (h : Marshal c = .ok b) : b ≠ [] := by
  unfold Marshal at h
  split at h
  · injection h with h
    subst h
    simp
  · simp at h

/-- A successful `Set` wrote the marshalled record to the path and left every
other file and the fault tables alone. -/
theorem Set_ok (f : File) (fs : FileSys) (token : List Nat) (expiresAt : Time)
    (h : (f.Set fs token expiresAt).1 = none) :
    ∃ b, Marshal ⟨token, expiresAt⟩ = .ok b ∧
      (f.Set fs token expiresAt).2 =
        { fs with files := fun p => if p = f.path then some b else fs.files p } := by
  unfold File.Set at h ⊢
  cases hm : Marshal ⟨token, expiresAt⟩ with
  | error e => simp [hm] at h
  | ok b =>
    refine ⟨b, rfl, ?_⟩
    simp only [hm, WriteFile] at h ⊢
    cases hw : fs.writeFault f.path with
    | some e => simp [hw] at h
    | none => simp

/-- Reading back after a successful `Set`, when reading the path does not
fail: `Get` sees the record as it was written, that is, the token as its JSON
text decodes and the time with its zone offset cut to whole minutes. -/
theorem Get_after_Set (f : File) (fs : FileSys) (token : List Nat) (expiresAt now : Time)
    (hv : expiresAt.Valid) (hset : (f.Set fs token expiresAt).1 = none)
    (hread : fs.readFault f.path = none) :
    f.Get (f.Set fs token expiresAt).2 now =
      if now.After expiresAt.written then ([], some .ErrTokenExpired)
      else (utf8 (unquote (appendString 0 token)), none) := by
  obtain ⟨b, hm, hfs⟩ := Set_ok f fs token expiresAt hset
  have hne := Marshal_ne_nil _ b hm
  have hu := Unmarshal_Marshal token expiresAt b cache.zero hv hm
  have hlen : ¬ b.length = 0 := by
    intro h0
    exact hne (List.length_eq_zero.mp h0)
  rw [hfs]
  simp [File.Get, ReadFile, hread, hlen, hu]

/-- A zone offset of whole minutes is written in full. -/
theorem written_of_whole_minutes (t : Time) (h : t.offset % 60 = 0) : t.written = t := by
  have hd : (60 : Int) ∣ t.offset := Int.dvd_of_emod_eq_zero h
  have e : zoneMinutes t.offset * 60 = t.offset := Int.tdiv_mul_cancel hd
  cases t
  simp only [Time.written] at e ⊢
  simp [e]

/-- A well-formed Go string comes back from its JSON text unchanged. -/
theorem unquote_appendString_utf8 (text : List Char) :
    utf8 (unquote (appendString 0 (utf8 text))) = utf8 text := by
  rw [appendString_utf8, unquote_encodeChars]

/-! ## The claims -/

/-- C1, as stated, fails for a zone whose offset has odd seconds: `Set` is
given an `expiresAt` thirty seconds ahead of the clock, held in a zone 59
seconds west of UTC, and returns `nil`; the record is written with the zone
`+00:00`, 59 seconds early, and `Get` returns `ErrTokenExpired`. -/
theorem Set_Get_odd_zone_expired :
    aheadInOddZone.Valid ∧ (tokenFile.Set emptyFS abc123 aheadInOddZone).1 = none ∧
      noon.unixNano < aheadInOddZone.unixNano ∧
      tokenFile.Get (tokenFile.Set emptyFS abc123 aheadInOddZone).2 noon
        = ([], some .ErrTokenExpired) := by
  decide

/-- C1 (amended). Round trip: for every token that is well-formed UTF-8 (the
bytes of some text) and every `expiresAt` whose zone offset is a whole number
of minutes, when `Set(token, expiresAt)` returns `nil`, a `Get` on the same
path, with nothing written in between and the path readable, at a time before
`expiresAt`, returns exactly `(token, nil)`. -/
theorem Set_Get_roundtrip (f : File) (fs : FileSys) (token : List Nat) (text : List Char)
    (expiresAt now : Time) (htoken : token = utf8 text) (hv : expiresAt.Valid)
    (hzone : expiresAt.offset % 60 = 0) (hset : (f.Set fs token expiresAt).1 = none)
    (hread : fs.readFault f.path = none) (hfuture : now.unixNano < expiresAt.unixNano) :
    f.Get (f.Set fs token expiresAt).2 now = (token, none) := by
  rw [Get_after_Set f fs token expiresAt now hv hset hread,
    written_of_whole_minutes expiresAt hzone, htoken, unquote_appendString_utf8]
  have h : now.After expiresAt = false := by
    simp only [Time.After, decide_eq_false_iff_not]
    omega
  simp [h]

theorem Set_Get_roundtrip_witness :
    abc123 = utf8 ['a', 'b', 'c', '1', '2', '3'] ∧ noonPlusHour.Valid ∧
      noonPlusHour.offset % 60 = 0 ∧ (tokenFile.Set emptyFS abc123 noonPlusHour).1 = none ∧
      emptyFS.readFault tokenFile.path = none ∧ noon.unixNano < noonPlusHour.unixNano ∧
      tokenFile.Get (tokenFile.Set emptyFS abc123 noonPlusHour).2 noon = (abc123, none) :=
  ⟨by decide, by decide, by decide, by decide, rfl, by decide,
    Set_Get_roundtrip tokenFile emptyFS abc123 ['a', 'b', 'c', '1', '2', '3'] noonPlusHour noon
      (by decide) (by decide) (by decide) (by decide) rfl (by decide)⟩

/-- C2, as stated, fails when `expiresAt` equals the current time: the file
holds a record expiring at noon, the clock reads noon, and `Get` returns the
token with a `nil` error instead of `ErrTokenExpired`. -/
theorem Get_at_expiry_instant :
    Unmarshal expiringAtNoon.toList cache.zero = .ok ⟨abc123, noon⟩ ∧
      tokenFile.Get (fsHolding expiringAtNoon) noon = (abc123, none) ∧
      tokenFile.Get (fsHolding expiringAtNoon) noon ≠ ([], some .ErrTokenExpired) := by
  decide

/-- C2 (amended). For every stored record that parses: if its `expiresAt`
strictly precedes the current time, `Get` returns `("", ErrTokenExpired)`; if
it equals the current time or lies after it, `Get` returns the token with a
`nil` error. -/
theorem Get_expiry_boundary (f : File) (fs : FileSys) (now : Time) (contents : List Char)
    (c : cache) (hr : ReadFile fs f.path = .ok contents) (hne : contents ≠ [])
    (hu : Unmarshal contents cache.zero = .ok c) :
    (c.ExpiresAt.unixNano < now.unixNano → f.Get fs now = ([], some .ErrTokenExpired)) ∧
      (now.unixNano ≤ c.ExpiresAt.unixNano → f.Get fs now = (c.Token, none)) := by
  have hlen : ¬ contents.length = 0 := fun h0 => hne (List.length_eq_zero.mp h0)
  constructor
  · intro h
    have ha : now.After c.ExpiresAt = true := by simp [Time.After, h]
    simp [File.Get, hr, hlen, hu, ha]
  · intro h
    have ha : now.After c.ExpiresAt = false := by
      simp only [Time.After, decide_eq_false_iff_not]
      omega
    simp [File.Get, hr, hlen, hu, ha]

theorem Get_expiry_boundary_witness :
    ReadFile (fsHolding expiringAtNoon) tokenFile.path = .ok expiringAtNoon.toList ∧
      expiringAtNoon.toList ≠ [] ∧
      Unmarshal expiringAtNoon.toList cache.zero = .ok ⟨abc123, noon⟩ ∧
      ((noon.unixNano < noonPlusHour.unixNano →
          tokenFile.Get (fsHolding expiringAtNoon) noonPlusHour = ([], some .ErrTokenExpired)) ∧
        (noonPlusHour.unixNano ≤ noon.unixNano →
          tokenFile.Get (fsHolding expiringAtNoon) noonPlusHour = (abc123, none))) :=
  ⟨rfl, by decide, by decide,
    Get_expiry_boundary tokenFile (fsHolding expiringAtNoon) noonPlusHour expiringAtNoon.toList
      ⟨abc123, noon⟩ rfl (by decide) (by decide)⟩

/-- C3, as stated, fails: a stored record with an empty token and a future
expiry is read back as `("", nil)`, and so is the record written by
`Set("", expiresAt)` with `expiresAt` in the future. -/
theorem Get_empty_token_valid :
    tokenFile.Get (fsHolding emptyTokenRecord) noon = ([], none) ∧
      (tokenFile.Set emptyFS [] noonPlusHour).1 = none ∧
      tokenFile.Get (tokenFile.Set emptyFS [] noonPlusHour).2 noon = ([], none) := by
  decide

/-- C3 (amended). `Get` does not inspect the token: it returns `(token, nil)`
exactly when the file is read, is not empty, decodes to a record holding that
token, and the current time is not after the record's `expiresAt`. The token
may be empty. -/
theorem Get_nil_error_iff (f : File) (fs : FileSys) (now : Time) (token : List Nat) :
    f.Get fs now = (token, none) ↔
      ∃ contents c, ReadFile fs f.path = .ok contents ∧ contents ≠ [] ∧
        Unmarshal contents cache.zero = .ok c ∧ now.After c.ExpiresAt = false ∧
        c.Token = token := by
  unfold File.Get
  cases hr : ReadFile fs f.path with
  | error e => simp
  | ok contents =>
    by_cases hlen : contents.length = 0
    · have : contents = [] := List.length_eq_zero.mp hlen
      simp [hlen, this]
    · have hne : contents ≠ [] := fun h => hlen (by simp [h])
      cases hu : Unmarshal contents cache.zero with
      | error e => simp [hlen, hu]
      | ok c =>
        cases ha : now.After c.ExpiresAt
        · simp [hlen, hne, hu, ha]
        · simp [hlen, hne, hu, ha]

/-- C4, as stated, fails: on a file system where nothing was ever stored at the
path, `Get` returns the read error of the missing file, not
`ErrTokenNotExist`. -/
theorem Get_fresh_store :
    emptyFS.files tokenFile.path = none ∧
      tokenFile.Get emptyFS noon = ([], some (.path .notExist)) ∧
      tokenFile.Get emptyFS noon ≠ ([], some .ErrTokenNotExist) := by
  decide

/-- C4 (amended). Before any `Set`, when no file exists at the path, `Get`
returns an empty token and the error of `ReadFile` unchanged, which is the
"no such file" error unless reading fails for another reason; it is never
`ErrTokenNotExist`. -/
theorem Get_missing_file (f : File) (fs : FileSys) (now : Time)
    (h : fs.files f.path = none) :
    ∃ e, ReadFile fs f.path = .error e ∧ f.Get fs now = ([], some (.path e)) ∧
      f.Get fs now ≠ ([], some .ErrTokenNotExist) ∧
      (fs.readFault f.path = none → e = .notExist) := by
  unfold File.Get ReadFile
  cases hf : fs.readFault f.path with
  | some e => exact ⟨e, by simp⟩
  | none => exact ⟨.notExist, by simp [h]⟩

theorem Get_missing_file_witness :
    emptyFS.files tokenFile.path = none ∧
      ∃ e, ReadFile emptyFS tokenFile.path = .error e ∧
        tokenFile.Get emptyFS noon = ([], some (.path e)) ∧
        tokenFile.Get emptyFS noon ≠ ([], some .ErrTokenNotExist) ∧
        (emptyFS.readFault tokenFile.path = none → e = .notExist) :=
  ⟨rfl, Get_missing_file tokenFile emptyFS noon rfl⟩

/-- C5, as stated, fails for JSON `null`: a record whose token is `null`
(not a string) with a future expiry is read with a `nil` error, and the
content `null` (not an object) yields `ErrTokenExpired`, not an unmarshaling
failure. -/
theorem Get_null_accepted :
    tokenFile.Get (fsHolding nullTokenRecord) noon = ([], none) ∧
      tokenFile.Get (fsHolding "null") noon = ([], some .ErrTokenExpired) := by
  decide

/-- C5 (amended). For every non-empty file content that is not valid JSON, or
is a top-level array, string, number or boolean, or is an object with a
`token` that is neither a string nor `null` or an `expiresAt` that is neither
`null` nor a string holding an RFC 3339 timestamp, `Get` returns an empty
token and the unmarshaling error, which differs from `ErrTokenNotExist` and
`ErrTokenExpired`. -/
theorem Get_corrupt (f : File) (fs : FileSys) (now : Time) (contents : List Char)
    (hr : ReadFile fs f.path = .ok contents) (hne : contents ≠ [])
    (hc : corrupt contents = true) :
    ∃ e, Unmarshal contents cache.zero = .error e ∧
      f.Get fs now = ([], some (.unmarshaling e)) ∧
      Error.unmarshaling e ≠ .ErrTokenNotExist ∧ Error.unmarshaling e ≠ .ErrTokenExpired := by
  have hlen : ¬ contents.length = 0 := fun h0 => hne (List.length_eq_zero.mp h0)
  cases hu : Unmarshal contents cache.zero with
  | ok c =>
    have := (Unmarshal_ok_iff contents cache.zero).mp ⟨c, hu⟩
    rw [hc] at this
    cases this
  | error e =>
    exact ⟨e, rfl, by simp [File.Get, hr, hlen, hu], by simp, by simp⟩

theorem Get_corrupt_witness :
    ReadFile (fsHolding "not json") tokenFile.path = .ok "not json".toList ∧
      "not json".toList ≠ [] ∧ corrupt "not json".toList = true ∧
      ∃ e, Unmarshal "not json".toList cache.zero = .error e ∧
        tokenFile.Get (fsHolding "not json") noon = ([], some (.unmarshaling e)) ∧
        Error.unmarshaling e ≠ .ErrTokenNotExist ∧ Error.unmarshaling e ≠ .ErrTokenExpired :=
  ⟨rfl, by decide, by decide,
    Get_corrupt tokenFile (fsHolding "not json") noon "not json".toList rfl (by decide)
      (by decide)⟩

/-- C7, as stated, fails for a zone whose offset has odd seconds: `Set` is
given an `expiresAt` one second before the clock, held in a zone 59 seconds
east of UTC, and returns `nil`; the record is written with the zone `+00:00`,
59 seconds late, and `Get` returns the token with a `nil` error. -/
theorem Set_Get_odd_zone_not_expired :
    pastInOddZone.Valid ∧ (tokenFile.Set emptyFS abc123 pastInOddZone).1 = none ∧
      pastInOddZone.unixNano < noon.unixNano ∧
      tokenFile.Get (tokenFile.Set emptyFS abc123 pastInOddZone).2 noon = (abc123, none) := by
  decide

/-- C7 (amended). Expired record after `Set`: for every token and every
`expiresAt` whose zone offset is a whole number of minutes, when
`Set(token, expiresAt)` returns `nil` and `expiresAt` is strictly before the
current time at the read, `Get` (the path readable) returns
`("", ErrTokenExpired)`. -/
theorem Set_Get_expired (f : File) (fs : FileSys) (token : List Nat) (expiresAt now : Time)
    (hv : expiresAt.Valid) (hzone : expiresAt.offset % 60 = 0)
    (hset : (f.Set fs token expiresAt).1 = none)
    (hread : fs.readFault f.path = none) (hpast : expiresAt.unixNano < now.unixNano) :
    f.Get (f.Set fs token expiresAt).2 now = ([], some .ErrTokenExpired) := by
  rw [Get_after_Set f fs token expiresAt now hv hset hread,
    written_of_whole_minutes expiresAt hzone]
  have h : now.After expiresAt = true := by simp [Time.After, hpast]
  simp [h]

theorem Set_Get_expired_witness :
    noonMinusSecond.Valid ∧ noonMinusSecond.offset % 60 = 0 ∧
      (tokenFile.Set emptyFS abc123 noonMinusSecond).1 = none ∧
      emptyFS.readFault tokenFile.path = none ∧ noonMinusSecond.unixNano < noon.unixNano ∧
      tokenFile.Get (tokenFile.Set emptyFS abc123 noonMinusSecond).2 noon
        = ([], some .ErrTokenExpired) :=
  ⟨by decide, by decide, by decide, rfl, by decide,
    Set_Get_expired tokenFile emptyFS abc123 noonMinusSecond noon
      (by decide) (by decide) (by decide) rfl (by decide)⟩

/-- C8. `Set` returns a non-`nil` error exactly when marshalling the record
fails or the write of the marshalled bytes fails; the error returned is the
error of the failing step itself; and when marshalling fails the file system
is left as it was. -/
theorem Set_error_contract (f : File) (fs : FileSys) (token : List Nat) (expiresAt : Time) :
    ((f.Set fs token expiresAt).1 ≠ none ↔
        ((∃ e, Marshal ⟨token, expiresAt⟩ = .error e) ∨
          ∃ b e, Marshal ⟨token, expiresAt⟩ = .ok b ∧ (WriteFile fs f.path b).1 = some e)) ∧
      (∀ e, Marshal ⟨token, expiresAt⟩ = .error e →
        f.Set fs token expiresAt = (some (.json e), fs)) ∧
      (∀ b e, Marshal ⟨token, expiresAt⟩ = .ok b → (WriteFile fs f.path b).1 = some e →
        (f.Set fs token expiresAt).1 = some (.path e)) := by
  unfold File.Set
  cases hm : Marshal ⟨token, expiresAt⟩ with
  | error e => simp
  | ok b =>
    cases hw : fs.writeFault f.path with
    | some e => simp [WriteFile, hw]
    | none => simp [WriteFile, hw]

theorem Set_error_contract_witness :
    ((tokenFile.Set emptyFS abc123 yearTenThousand).1 ≠ none ↔
        ((∃ e, Marshal ⟨abc123, yearTenThousand⟩ = .error e) ∨
          ∃ b e, Marshal ⟨abc123, yearTenThousand⟩ = .ok b ∧
            (WriteFile emptyFS tokenFile.path b).1 = some e)) ∧
      (∀ e, Marshal ⟨abc123, yearTenThousand⟩ = .error e →
        tokenFile.Set emptyFS abc123 yearTenThousand = (some (.json e), emptyFS)) ∧
      (∀ b e, Marshal ⟨abc123, yearTenThousand⟩ = .ok b →
        (WriteFile emptyFS tokenFile.path b).1 = some e →
        (tokenFile.Set emptyFS abc123 yearTenThousand).1 = some (.path e)) :=
  Set_error_contract tokenFile emptyFS abc123 yearTenThousand

/-- C10. When reading the file succeeds and yields no bytes, `Get` returns
`("", ErrTokenNotExist)` at every current time, although parsing the empty
input would have been a syntax error; and when the read fails, `Get` returns
the read error unchanged, which is not `ErrTokenNotExist`. -/
theorem Get_empty_or_unreadable (f : File) (fs : FileSys) (now : Time) :
    (ReadFile fs f.path = .ok [] → f.Get fs now = ([], some .ErrTokenNotExist)) ∧
      Unmarshal [] cache.zero = .error .invalidJSON ∧
      (∀ e, ReadFile fs f.path = .error e →
        f.Get fs now = ([], some (.path e)) ∧ Error.path e ≠ .ErrTokenNotExist) := by
  refine ⟨?_, by decide, ?_⟩
  · intro h
    simp [File.Get, h]
  · intro e h
    simp [File.Get, h]

theorem Get_empty_or_unreadable_witness :
    (ReadFile (fsHolding "") tokenFile.path = .ok [] ∧
        tokenFile.Get (fsHolding "") noon = ([], some .ErrTokenNotExist)) ∧
      (ReadFile unreadableFS tokenFile.path = .error .permission ∧
        tokenFile.Get unreadableFS noon = ([], some (.path .permission))) :=
  ⟨⟨rfl, (Get_empty_or_unreadable tokenFile (fsHolding "") noon).1 rfl⟩,
    ⟨rfl, ((Get_empty_or_unreadable tokenFile unreadableFS noon).2.2 .permission rfl).1⟩⟩


end tokencacher
